import Mathlib

/-!
Verification development for the OpenMDAO sensitivity core.

Shallow embedding of the two source files
  - openmdao/utils/relevance.py            (Relevance engine)
  - openmdao/approximation_schemes/approximation_scheme.py
                                           (approximation / Jacobian assembly)

Conventions of the embedding:
  - numpy boolean relevance arrays become `List Bool`;
  - Python `frozenset` seed keys become `Finset String`;
  - Python dicts become association lists or explicit function maps;
  - mutation of the `Relevance` object becomes explicit state passing on
    the `RelState` structure;
  - Python exceptions (KeyError, RuntimeError, NameError) become
    `Except` values with an explicit error datatype;
  - `contextmanager` scopes become an enter function returning the new
    state together with a `Save` record, and `apply_save` which plays the
    role of the `finally:` block (run on every exit path, normal or
    abnormal).
-/

/-! ## Relevance arrays (relevance.py)

`RelArray` is a boolean relevance vector (numpy `ndarray` of dtype bool).
`relElem a i` reads entry `i` (out-of-range reads default to `false`;
all theorems carry the in-range bounds the numpy code relies on). -/

abbrev RelArray := List Bool

def relElem (a : RelArray) (i : Nat) : Bool := a.getD i false

/-- Elementwise `|=` of two equal-length boolean arrays. -/
def orArr (a b : RelArray) : RelArray := List.zipWith or a b

/-- Elementwise `&=` of two equal-length boolean arrays. -/
def andArr (a b : RelArray) : RelArray := List.zipWith and a b

/-- `Relevance._union_arrays` (relevance.py lines 303-330): the union of the
relevance arrays of the given seeds.  An empty seed iterable yields the
empty (`np.zeros(0)`) array; otherwise the first seed's array is copied and
the remaining seeds' arrays are or-ed into it. -/
def _union_arrays (seed_map : String → RelArray) (seeds : List String) : RelArray :=
  match seeds with
  | [] => []
  | s :: rest => rest.foldl (fun acc t => orArr acc (seed_map t)) (seed_map s)

/-- `Relevance._combine_relevance` (lines 270-301): union of the fwd seeds'
arrays, union of the rev seeds' arrays, then the elementwise intersection
(`farray &= rarray`).  The trailing `_get_cached_array` call is
value-preserving (see `_get_cached_array_val_eq`) so the value-level
embedding returns the intersection directly. -/
def _combine_relevance (fmap : String → RelArray) (fwd_seeds : List String)
    (rmap : String → RelArray) (rev_seeds : List String) : RelArray :=
  andArr (_union_arrays fmap fwd_seeds) (_union_arrays rmap rev_seeds)

/-- Value-level model of `Relevance._get_cached_array` (lines 248-268): the
content-hash cache returns the stored array whose hash matches, otherwise
the input array.  Since structurally equal arrays share a hash, the value
returned is always structurally equal to the input (identity of the
returned object is studied separately in the reference cache model). -/
def _get_cached_array_val (cache : List RelArray) (arr : RelArray) : RelArray :=
  match cache.find? (fun a => decide (a = arr)) with
  | some a => a
  | none => arr

/-- The nested `{fwdseed(s): {revseed(s): array}}` map, keyed by frozensets
of seed names. -/
def SeedMap := Finset String → Finset String → Option RelArray

def insertSeedMap (m : SeedMap) (F R : Finset String) (arr : RelArray) : SeedMap :=
  fun F' R' => if F' = F ∧ R' = R then some arr else m F' R'

/-- Iteration order chosen for a Python frozenset of names (Python's order
is unspecified; all union results are order-independent). -/
def seedList (F : Finset String) : List String := F.sort (fun a b => a ≤ b)

/-- `Relevance._get_rel_array` (lines 648-681): return the combined
relevance array for the given seeds from the nested seed map, computing it
with `_combine_relevance` and caching it on a miss.  Returns the possibly
updated map together with the array.  Python iterates the frozensets; the
embedding iterates `seedList`. -/
def _get_rel_array (seed_map : SeedMap) (fmap rmap : String → RelArray)
    (F R : Finset String) : SeedMap × RelArray :=
  match seed_map F R with
  | some arr => (seed_map, arr)
  | none =>
    let arr := _combine_relevance fmap (seedList F) rmap (seedList R)
    (insertSeedMap seed_map F R arr, arr)

/-- The combined array value consulted for a seed pair. -/
def relevance_array (seed_map : SeedMap) (fmap rmap : String → RelArray)
    (F R : Finset String) : RelArray :=
  (_get_rel_array seed_map fmap rmap F R).2

/-! ## The Relevance engine state (relevance.py lines 98-127 and queries)

`active` models `_active : bool or None`.  `var2idx`/`sys2idx` are the
name-to-row-index tables; `currentVarArray`/`currentSysArray` model
`_current_rel_varray`/`_current_rel_sarray` (both `None` right after
`__init__`, lines 116-117). -/

structure RelState where
  active : Option Bool
  fwdSeeds : Finset String
  revSeeds : Finset String
  allFwd : Finset String
  allRev : Finset String
  currentVarArray : Option RelArray
  currentSysArray : Option RelArray
  seedVarMap : SeedMap
  seedSysMap : SeedMap
  fwdSingleVar : String → RelArray
  revSingleVar : String → RelArray
  fwdSingleSys : String → RelArray
  revSingleSys : String → RelArray
  nonlinearSets : String → Option RelArray
  var2idx : List (String × Nat)
  sys2idx : List (String × Nat)

/-- `Relevance._set_seeds` (lines 626-646): record the currently active
seeds; when both seed sets are non-empty (Python truthiness of the
frozensets) recompute the current combined variable and system relevance
arrays through `_get_rel_array`. -/
def _set_seeds (s : RelState) (F R : Finset String) : RelState :=
  let s1 := { s with fwdSeeds := F, revSeeds := R }
  if F.Nonempty ∧ R.Nonempty then
    let pv := _get_rel_array s1.seedVarMap s1.fwdSingleVar s1.revSingleVar F R
    let ps := _get_rel_array s1.seedSysMap s1.fwdSingleSys s1.revSingleSys F R
    { s1 with
      seedVarMap := pv.1, seedSysMap := ps.1,
      currentVarArray := some pv.2, currentSysArray := some ps.2 }
  else s1

/-- What a context manager's `finally:` block will write back.  `noop`
corresponds to the guard branches that merely `yield` without touching the
engine. -/
inductive Save where
  | noop
  | fromActive (a : Option Bool)
  | fromSeeds (f r : Finset String) (a : Option Bool)
  | fromNonlinear (a : Option Bool)

/-- Entry half of `Relevance.active` (lines 486-508): if `not self._active`
(i.e. `_active` is `None` or `False`) nothing is changed; otherwise the old
flag is saved and replaced. -/
def active_enter (b : Bool) (s : RelState) : RelState × Save :=
  if s.active = some true then ({ s with active := some b }, Save.fromActive s.active)
  else (s, Save.noop)

/-- Entry half of `Relevance.seeds_active` (lines 565-596): no-op when
`_active is False`; otherwise save `_seed_vars` and `_active`, force
`_active = True`, default missing arguments to the full seed sets, and call
`_set_seeds`. -/
def seeds_active_enter (fwdArg revArg : Option (List String)) (s : RelState) :
    RelState × Save :=
  if s.active = some false then (s, Save.noop)
  else
    let save := Save.fromSeeds s.fwdSeeds s.revSeeds s.active
    let F := match fwdArg with | none => s.allFwd | some l => l.toFinset
    let R := match revArg with | none => s.allRev | some l => l.toFinset
    (_set_seeds { s with active := some true } F R, save)

/-- Entry half of `Relevance.all_seeds_active` (lines 540-563). -/
def all_seeds_active_enter (s : RelState) : RelState × Save :=
  if s.active = some false then (s, Save.noop)
  else
    (_set_seeds { s with active := some true } s.allFwd s.allRev,
     Save.fromSeeds s.fwdSeeds s.revSeeds s.active)

/-- Entry half of `Relevance.activate_nonlinear` (lines 598-624): no-op when
deactivated, globally inactive, or the named set is absent; otherwise save
`_active`, force it `True` and overwrite `_current_rel_sarray` with the
named precomputed partition array. -/
def activate_nonlinear_enter (name : String) (act : Bool) (s : RelState) :
    RelState × Save :=
  if ¬act ∨ s.active = some false ∨ s.nonlinearSets name = none then (s, Save.noop)
  else ({ s with active := some true, currentSysArray := s.nonlinearSets name },
        Save.fromNonlinear s.active)

/-- The `finally:` blocks of the four context managers: restore exactly the
saved attributes onto the current state (run on every exit path). -/
def apply_save (sv : Save) (s : RelState) : RelState :=
  match sv with
  | Save.noop => s
  | Save.fromActive a => { s with active := a }
  | Save.fromSeeds f r a => { s with fwdSeeds := f, revSeeds := r, active := a }
  | Save.fromNonlinear a => { s with active := a }

/-- Python exceptions surfaced by the queries. -/
inductive PyError where
  | keyError
  | typeError
  | indexError
deriving DecidableEq

/-- Plain dict lookup (raising form modelled by the caller). -/
def lookupIdx : List (String × Nat) → String → Option Nat
  | [], _ => none
  | (k, v) :: rest, name => if k = name then some v else lookupIdx rest name

/-- `Relevance.is_relevant` (lines 683-700): `True` unconditionally when the
engine is not active; otherwise index the current combined variable array at
`_var2idx[name]` (a missing name raises `KeyError`; a `None` current array
would raise `TypeError`). -/
def is_relevant (s : RelState) (name : String) : Except PyError Bool :=
  if s.active = some true then
    match lookupIdx s.var2idx name with
    | none => Except.error PyError.keyError
    | some i =>
      match s.currentVarArray with
      | none => Except.error PyError.typeError
      | some arr =>
        if h : i < arr.length then Except.ok (arr.get ⟨i, h⟩)
        else Except.error PyError.indexError
  else Except.ok true

/-- `Relevance.is_relevant_system` (lines 702-719). -/
def is_relevant_system (s : RelState) (name : String) : Except PyError Bool :=
  if s.active = some true then
    match lookupIdx s.sys2idx name with
    | none => Except.error PyError.keyError
    | some i =>
      match s.currentSysArray with
      | none => Except.error PyError.typeError
      | some arr =>
        if h : i < arr.length then Except.ok (arr.get ⟨i, h⟩)
        else Except.error PyError.indexError
  else Except.ok true

/-- `Relevance.__init__` (lines 98-127).  `fwdMeta`/`revMeta` are the lists
of seed source names carried by the metadata dicts ("keys don't matter").
`mkFull` abstracts the body of `_set_all_seeds` past its early return
(lines 387-484), which only runs when both metadata collections are
non-empty; `nl` abstracts the `_nonlinear_sets` produced by
`_setup_nonlinear_sets`.  After `_set_all_seeds`, lines 116-117 reset both
current relevance arrays to `None`; finally, when either metadata
collection is empty, `_active` is set to `False` (line 127). -/
def relevance_init (mkFull : RelState → RelState) (nl : String → Option RelArray)
    (fwdMeta revMeta : List String) : RelState :=
  let s0 : RelState :=
    { active := none
      fwdSeeds := ∅, revSeeds := ∅
      allFwd := fwdMeta.toFinset, allRev := revMeta.toFinset
      currentVarArray := none, currentSysArray := none
      seedVarMap := fun _ _ => none, seedSysMap := fun _ _ => none
      fwdSingleVar := fun _ => [], revSingleVar := fun _ => []
      fwdSingleSys := fun _ => [], revSingleSys := fun _ => []
      nonlinearSets := fun _ => none
      var2idx := [], sys2idx := [] }
  let s1 := if fwdMeta ≠ [] ∧ revMeta ≠ [] then mkFull s0 else s0
  let s2 := { s1 with currentVarArray := none, currentSysArray := none, nonlinearSets := nl }
  if fwdMeta ≠ [] ∧ revMeta ≠ [] then s2 else { s2 with active := some false }

/-- Client programs against the engine: nested context-manager scopes (each
scope runs its body then its `finally:` restore) and direct `_set_seeds`
calls.  Queries are read-only and need no command. -/
inductive Cmd where
  | scopedActive (b : Bool) (body : List Cmd)
  | scopedSeeds (f r : Option (List String)) (body : List Cmd)
  | scopedAllSeeds (body : List Cmd)
  | scopedNonlinear (name : String) (act : Bool) (body : List Cmd)
  | setSeedsCmd (f r : Finset String)

mutual

def runCmd : Cmd → RelState → RelState
  | Cmd.scopedActive b body, s =>
    let p := active_enter b s
    apply_save p.2 (runCmds body p.1)
  | Cmd.scopedSeeds f r body, s =>
    let p := seeds_active_enter f r s
    apply_save p.2 (runCmds body p.1)
  | Cmd.scopedAllSeeds body, s =>
    let p := all_seeds_active_enter s
    apply_save p.2 (runCmds body p.1)
  | Cmd.scopedNonlinear name act body, s =>
    let p := activate_nonlinear_enter name act s
    apply_save p.2 (runCmds body p.1)
  | Cmd.setSeedsCmd f r, s => _set_seeds s f r

def runCmds : List Cmd → RelState → RelState
  | [], s => s
  | c :: cs, s => runCmds cs (runCmd c s)

end

/-! ## Nonlinear pre/iterated/post partition
(`Relevance._setup_nonlinear_relevance`, relevance.py lines 962-1132)

The walk over the strongly connected components (lines 1083-1107) is
embedded over an abstract graph: `typed nd` says whether node `nd` carries a
`type_` attribute (i.e. is a variable node, here only auto-ivc design
variables); such nodes are collapsed to their owning component name by
`rpartition('.')[0]`. -/

/-- Characters strictly before the last `'.'` of the list (`none` when no
dot occurs). -/
def beforeLastDot : List Char → Option (List Char)
  | [] => none
  | ch :: rest =>
    match beforeLastDot rest with
    | some tail => some (ch :: tail)
    | none => if ch = '.' then some [] else none

/-- `name.rpartition('.')[0]`: everything before the last dot (empty string
when there is no dot). -/
def dropLastDot (s : String) : String :=
  match beforeLastDot s.data with
  | some cs => String.mk cs
  | none => ""

def collapseNode (typed : String → Bool) (nd : String) : String :=
  if typed nd then dropLastDot nd else nd

def autoIvcName : String := "_auto_ivc"

/-- Add the collapsed members of one SCC to a set (Python
`if s not in addto: addto.add(s)`; sets are modelled as duplicate-free
insertion-ordered lists). -/
def addScc (typed : String → Bool) (scc : List String) (acc : List String) : List String :=
  scc.foldl (fun a nd =>
    let s := collapseNode typed nd
    if s ∈ a then a else a ++ [s]) acc

/-- The SCC walk of lines 1085-1107.  State is `(pre, iterated, post, seen)`
where `seen` records whether the SCC containing `dv0` has been passed
(`addto` switching from `pre` to `post`). -/
def sccWalkAux (typed : String → Bool) (dv0 : String) :
    List (List String) → List String × List String × List String × Bool →
    List String × List String × List String × Bool
  | [], st => st
  | scc :: rest, (p, i, q, seen) =>
    if dv0 ∈ scc then sccWalkAux typed dv0 rest (p, addScc typed scc i, q, true)
    else if seen then sccWalkAux typed dv0 rest (p, i, addScc typed scc q, seen)
    else sccWalkAux typed dv0 rest (addScc typed scc p, i, q, seen)

/-- The `_auto_ivc` adjustment of lines 1109-1128: fold `_auto_ivc` into
`pre` when one of its non-design-variable outputs feeds a `pre` component;
then drop it again if `pre` would contain nothing else. -/
def adjustAutoIvcPre (autoOuts autoDvs : List String)
    (revConns : String → List String) (pre : List String) : List String :=
  let pre1 :=
    if autoIvcName ∈ pre then pre
    else if autoOuts.any (fun v =>
        decide (v ∉ autoDvs) &&
        (revConns v).any (fun tgt => decide (dropLastDot tgt ∈ pre))) then
      pre ++ [autoIvcName]
    else pre
  if pre1.length = 1 ∧ autoIvcName ∈ pre1 then pre1.erase autoIvcName else pre1

/-- The three sets after the SCC walk and the `_auto_ivc` adjustment, before
the final `- groups_added` subtraction. -/
def nonlinearPartitionRaw (typed : String → Bool) (dv0 : String)
    (sccs : List (List String)) (autoOuts autoDvs : List String)
    (revConns : String → List String) :
    List String × List String × List String :=
  let w := sccWalkAux typed dv0 sccs ([], [], [], false)
  (adjustAutoIvcPre autoOuts autoDvs revConns w.1, w.2.1, w.2.2.1)

/-- Lines 1130-1132: `model._pre_components = pre - groups_added` (and
likewise for the iterated and post sets): the final result of
`_setup_nonlinear_relevance`. -/
def nonlinearPartition (typed : String → Bool) (dv0 : String)
    (sccs : List (List String)) (autoOuts autoDvs : List String)
    (revConns : String → List String) (groupsAdded : List String) :
    List String × List String × List String :=
  let r := nonlinearPartitionRaw typed dv0 sccs autoOuts autoDvs revConns
  (r.1.filter (fun x => decide (x ∉ groupsAdded)),
   r.2.1.filter (fun x => decide (x ∉ groupsAdded)),
   r.2.2.filter (fun x => decide (x ∉ groupsAdded)))

/-! ## Approximation request list and `_update_coloring`
(approximation_scheme.py lines 66-108)

An `_exec_list` entry is `(key, options)` with `key = (of, wrt)`.  The
options dict is modelled by: whether `'coloring'` is a key
(`hasColoring`), the coloring value if any, the `'approxs'` list if any
(flattened copies of absorbed plain requests), and an opaque `tag`
standing for the remaining option entries. -/

structure PlainReq where
  ofName : Option String
  wrtName : Option String
  hasColoring : Bool
  coloringVal : Option Nat
  tag : Nat
deriving DecidableEq

structure AEntry where
  ofName : Option String
  wrtName : Option String
  hasColoring : Bool
  coloringVal : Option Nat
  approxs : List PlainReq
  tag : Nat
deriving DecidableEq

def AEntry.key (e : AEntry) : Option String × Option String := (e.ofName, e.wrtName)

def AEntry.toPlain (e : AEntry) : PlainReq :=
  ⟨e.ofName, e.wrtName, e.hasColoring, e.coloringVal, e.tag⟩

/-- Line 90: `key[0] is not None and (key[1] in wrt_matches or 'coloring'
in options)`. -/
def entryMatches (wrtMatches : List String) (e : AEntry) : Bool :=
  e.ofName.isSome &&
    ((match e.wrtName with
      | some w => decide (w ∈ wrtMatches)
      | none => false) || e.hasColoring)

/-- Loop state of `_update_coloring`: `new_list`, the pending colored entry
(first absorbed request's options plus the accumulated `'approxs'` list),
and the `colored` key set (insertion-ordered, duplicate-free). -/
structure UCState where
  newList : List AEntry
  pending : Option (AEntry × List PlainReq)
  coloredKeys : List (Option String × Option String)

/-- One iteration of the `for tup in self._exec_list` loop (lines 88-102). -/
def ucStep (wrtMatches : List String) (coloring : Option Nat)
    (st : UCState) (e : AEntry) : UCState :=
  if entryMatches wrtMatches e then
    let ck := if e.key ∈ st.coloredKeys then st.coloredKeys else st.coloredKeys ++ [e.key]
    match coloring with
    | none => { newList := st.newList ++ [e], pending := st.pending, coloredKeys := ck }
    | some _ =>
      match st.pending with
      | none => { newList := st.newList, pending := some (e, [e.toPlain]), coloredKeys := ck }
      | some fa =>
        { newList := st.newList, pending := some (fa.1, fa.2 ++ [e.toPlain]), coloredKeys := ck }
  else st

/-- The synthetic colored-group entry (lines 96-100): `((None, None),
options)` where options is a copy of the first absorbed request's options
with `'coloring'` and `'approxs'` set. -/
def mkColoredEntry (c : Nat) (first : AEntry) (acc : List PlainReq) : AEntry :=
  { ofName := none, wrtName := none, hasColoring := true, coloringVal := some c,
    approxs := acc, tag := first.tag }

/-- `ApproximationScheme._update_coloring` (lines 66-108): run the loop over
`_exec_list`, materialize the pending colored entry (it sits at the front
of `new_list`, where Python appended it on creation), and — only when some
entry matched — append every entry whose key is not a colored key and
replace `_exec_list`. -/
def _update_coloring (wrtMatches : List String) (coloring : Option Nat)
    (lst : List AEntry) : List AEntry :=
  let st := lst.foldl (ucStep wrtMatches coloring) ⟨[], none, []⟩
  let newList :=
    match coloring, st.pending with
    | some c, some fa => st.newList ++ [mkColoredEntry c fa.1 fa.2]
    | _, _ => st.newList
  if st.coloredKeys ≠ [] then
    newList ++ lst.filter (fun t => decide (t.key ∉ st.coloredKeys))
  else lst

/-! ## `_compute_approximations`, serial path
(approximation_scheme.py lines 279-418)

Embedding of the single-process (`is_parallel = False`, `num_par_fd = 1`,
no voi indices) execution of `_compute_approximations`.  A group is
`(wrt, data, col_idxs)`; `wrt = None` marks the colored group.  `probe`
abstracts `_run_point` (one model evaluation at the perturbed indices) and
`transform` abstracts `_transform_result`; both are parameters of the
embedding, and `getMult` abstracts `_get_multiplier`.  Entries are exact
rationals standing for the real arithmetic.

After the probe loop, line 365 computes `mult = self._get_multiplier(data)`
from the *loop variable* `data`, i.e. from the step data of the last group
iterated (a `NameError` if there is no group at all); the colored COO data
is scaled by it (lines 382-383) and every `oview` staging block is scaled
by it (line 412) before conversion into the target Jacobian. -/

structure ApproxGroup where
  wrt : Option String
  data : Nat
  colIdxs : List (List Nat)
deriving DecidableEq

/-- The columns assembled for one group by the probe loop: one
`_transform_result(_run_point(...))` column per probe index list. -/
def assembleColumns (probe : Option String → List Nat → List Int)
    (transform : List Int → List Int) (g : ApproxGroup) : List (List Int) :=
  g.colIdxs.map (fun idxs => transform (probe g.wrt idxs))

/-- Serial `_compute_approximations`: returns the scaled colored data (if a
colored group exists) and the scaled staging block for every uncolored
group, in group order. -/
def _compute_approximations_serial (getMult : Nat → Int)
    (probe : Option String → List Nat → List Int) (transform : List Int → List Int)
    (groups : List ApproxGroup) :
    Except Unit (Option (List Int) × List (String × List (List Int))) :=
  match groups.getLast? with
  | none => Except.error ()
  | some lastg =>
    let mult := getMult lastg.data
    let jdata := (groups.filter (fun g => g.wrt.isNone)).flatMap
      (fun g => (assembleColumns probe transform g).flatten)
    let colored :=
      if groups.any (fun g => g.wrt.isNone) then
        some (if mult ≠ 1 then jdata.map (fun x => x * mult) else jdata)
      else none
    let blocks := groups.filterMap (fun g =>
      match g.wrt with
      | some w => some (w, (assembleColumns probe transform g).map
          (fun col => col.map (fun x => x * mult)))
      | none => none)
    Except.ok (colored, blocks)

/-! ## Reference-identity cache model
(`_get_cached_array` lines 248-268 and `_get_rel_array` lines 648-681)

To speak about object identity ("the identical stored array instance") the
arrays live in an arena `store`; an array reference is its arena index.
`array_hash` lives in `openmdao/utils/array_utils.py`, which is not under
`src/`. -/

/-- Modelled from the spec: `array_hash` (imported from
`openmdao.utils.array_utils`, not part of the supplied sources) is a stable
structural hash of the boolean vector (spec §3 "Relevance Cache", §9
"Content-addressed array caching"); it is modelled as a perfect structural
hash, i.e. the array content itself. -/
def array_hash (a : RelArray) : RelArray := a

def lookupAssoc {α β : Type} [DecidableEq α] : List (α × β) → α → Option β
  | [], _ => none
  | (k, v) :: rest, key => if k = key then some v else lookupAssoc rest key

structure CacheState where
  store : List RelArray
  hashMap : List (RelArray × Nat)
  seedMap : List ((Finset String × Finset String) × Nat)

/-- Identity-aware `Relevance._get_cached_array`: return the reference
stored under the array's content hash if present, else publish the array
as a new canonical instance. -/
def _get_cached_array_ref (st : CacheState) (arr : RelArray) : CacheState × Nat :=
  match lookupAssoc st.hashMap (array_hash arr) with
  | some j => (st, j)
  | none =>
    ({ st with store := st.store ++ [arr],
               hashMap := st.hashMap ++ [(array_hash arr, st.store.length)] },
     st.store.length)

/-- Identity-aware `Relevance._get_rel_array`: the nested seed map (here
flattened to pair keys, which preserves lookup/insert behaviour) returns
the stored reference on a hit; on a miss the combined array is computed,
canonicalized through the content-hash cache, stored and returned. -/
def _get_rel_array_ref (fmap rmap : String → RelArray) (st : CacheState)
    (F R : Finset String) : CacheState × Nat :=
  match lookupAssoc st.seedMap (F, R) with
  | some j => (st, j)
  | none =>
    let arr := _combine_relevance fmap (seedList F) rmap (seedList R)
    let p := _get_cached_array_ref st arr
    ({ p.1 with seedMap := p.1.seedMap ++ [((F, R), p.2)] }, p.2)

/-! ## Parallel-derivative overlap check
(`Relevance._par_deriv_err_check`, relevance.py lines 922-960)

`PdChk` is one worker's `pd_err_chk`: for each parallel-derivative color,
the seeds of that color with their relevance sets (as gathered from
`iter_seed_pair_relevance`).  `comm.allgather` hands every worker the same
list of all workers' `errs` dicts, from which the identical message is
built before raising. -/

abbrev RelSet := List String

abbrev PdChk := List (String × List (String × RelSet))

/-- Lines 943-949: for each variable of the color, append it once per other
same-colored variable whose relevance set intersects its own. -/
def overlapNames (dct : List (String × RelSet)) : List String :=
  dct.flatMap (fun p =>
    (dct.filter (fun q => decide (q.1 ≠ p.1) && p.2.any (fun x => decide (x ∈ q.2)))).map
      (fun _ => p.1))

/-- One worker's `errs` dict: colors mapped to their overlapping variable
name lists, keeping only colors with at least one overlap. -/
def computeParDerivErrs (chk : PdChk) : List (String × List String) :=
  chk.filterMap (fun cd =>
    let names := overlapNames cd.2
    if names = [] then none else some (cd.1, names))

/-- `sorted(names)` (insertion sort on strings). -/
def insertSorted (a : String) : List String → List String
  | [] => [a]
  | b :: rest => if a ≤ b then a :: b :: rest else b :: insertSorted a rest

def sortStrings : List String → List String
  | [] => []
  | a :: rest => insertSorted a (sortStrings rest)

def vtypeOf (mode : String) : String :=
  if mode = "fwd" then "design variable" else "response"

/-- Lines 952-957: the diagnostic lines built from the gathered error
dicts; each line carries the color, the sorted overlapping names and the
variable-type word interpolated into the message string. -/
def buildParDerivMsg (mode : String) (allErrs : List (List (String × List String))) :
    List (String × List String × String) :=
  allErrs.flatMap (fun errdct =>
    errdct.map (fun cn => (cn.1, sortStrings cn.2, vtypeOf mode)))

/-- `Relevance._par_deriv_err_check` from the point where each worker holds
its `pd_err_chk`: compute the local `errs`, allgather them (every worker
receives the same `allChks.map computeParDerivErrs`, rank order), build the
message and raise `RuntimeError` when it is non-empty.  `rank` is the
calling worker; the result does not depend on it. -/
def _par_deriv_err_check (mode : String) (allChks : List PdChk) (rank : Nat) :
    Except (List (String × List String × String)) Unit :=
  let allErrs := allChks.map computeParDerivErrs
  let msg := buildParDerivMsg mode allErrs
  if msg = [] then Except.ok () else Except.error msg

/-! ## Concrete instances used by witnesses and counterexamples -/

/-- An active engine: seeds `{a}`/`{b}`, current combined arrays `[true]`,
while the seed map holds `[false]` for every pair — so re-entering a seed
scope installs a visibly different current array. -/
def leakState : RelState :=
  { active := some true
    fwdSeeds := {"a"}, revSeeds := {"b"}
    allFwd := {"a"}, allRev := {"b"}
    currentVarArray := some [true], currentSysArray := some [true]
    seedVarMap := fun _ _ => some [false]
    seedSysMap := fun _ _ => some [false]
    fwdSingleVar := fun _ => [false], revSingleVar := fun _ => [false]
    fwdSingleSys := fun _ => [false], revSingleSys := fun _ => [false]
    nonlinearSets := fun _ => none
    var2idx := [("a", 0)], sys2idx := [("", 0)] }

/-- An active engine with a `'pre'` nonlinear set differing from the
current system relevance array. -/
def nlState : RelState :=
  { active := some true
    fwdSeeds := {"a"}, revSeeds := {"b"}
    allFwd := {"a"}, allRev := {"b"}
    currentVarArray := some [true, true], currentSysArray := some [true, true]
    seedVarMap := fun _ _ => some [true, true]
    seedSysMap := fun _ _ => some [true, true]
    fwdSingleVar := fun _ => [true, true], revSingleVar := fun _ => [true, true]
    fwdSingleSys := fun _ => [true, true], revSingleSys := fun _ => [true, true]
    nonlinearSets := fun name => if name = "pre" then some [false, true] else none
    var2idx := [("a", 0), ("b", 1)], sys2idx := [("", 0), ("c", 1)] }

/-- Model for the partition counterexample: auto-ivc design variable
`_auto_ivc.v0` drives component `A` (the response component), and the
non-design output `_auto_ivc.v1` drives the pre component `C`. -/
def cexTyped : String → Bool := fun nd => decide (nd = "_auto_ivc.v0")

def cexSccs : List (List String) := [["_auto_ivc"], ["C"], ["A", "_auto_ivc.v0"]]

def cexRevConns : String → List String := fun v =>
  if v = "_auto_ivc.v1" then ["C.x"] else if v = "_auto_ivc.v0" then ["A.x"] else []

/-- A plain request whose `wrt` is covered by the active coloring. -/
def cexReq : AEntry :=
  { ofName := some "o", wrtName := some "w", hasColoring := false,
    coloringVal := none, approxs := [], tag := 0 }

def cexGroupA : ApproxGroup := { wrt := some "a", data := 1, colIdxs := [[0]] }

def cexGroupB : ApproxGroup := { wrt := some "b", data := 2, colIdxs := [[0]] }

def cexGetMult : Nat → Int := fun d => Int.ofNat d

def cexProbe : Option String → List Nat → List Int := fun _ _ => [1]

def cexTransform : List Int → List Int := fun r => r

/-! # Theorems -/

/-! ## Elementwise characterization of union / intersection -/

theorem relElem_orArr : ∀ (a b : RelArray) (i : Nat), i < a.length → i < b.length →
    relElem (orArr a b) i = (relElem a i || relElem b i)
  | [], _, _, h, _ => absurd h (by simp)
  | _ :: _, [], _, _, h => absurd h (by simp)
  | x :: xs, y :: ys, 0, _, _ => rfl
  | x :: xs, y :: ys, i + 1, h1, h2 =>
    relElem_orArr xs ys i (by simpa using h1) (by simpa using h2)

theorem relElem_andArr : ∀ (a b : RelArray) (i : Nat), i < a.length → i < b.length →
    relElem (andArr a b) i = (relElem a i && relElem b i)
  | [], _, _, h, _ => absurd h (by simp)
  | _ :: _, [], _, _, h => absurd h (by simp)
  | x :: xs, y :: ys, 0, _, _ => rfl
  | x :: xs, y :: ys, i + 1, h1, h2 =>
    relElem_andArr xs ys i (by simpa using h1) (by simpa using h2)

theorem orArr_length (a b : RelArray) : (orArr a b).length = min a.length b.length :=
  List.length_zipWith _ _ _

theorem andArr_length (a b : RelArray) : (andArr a b).length = min a.length b.length :=
  List.length_zipWith _ _ _

theorem union_foldl_length (m : String → RelArray) (n : Nat) :
    ∀ (l : List String) (acc : RelArray), acc.length = n → (∀ s ∈ l, (m s).length = n) →
      (l.foldl (fun a t => orArr a (m t)) acc).length = n := by
  intro l
  induction l with
  | nil => intro acc h _; simpa using h
  | cons t rest ih =>
    intro acc hacc hm
    have h1 : (orArr acc (m t)).length = n := by
      rw [orArr_length, hacc, hm t (by simp)]; simp
    exact ih (orArr acc (m t)) h1 (fun s hs => hm s (by simp [hs]))

theorem union_foldl_elem (m : String → RelArray) (n : Nat) :
    ∀ (l : List String) (acc : RelArray), acc.length = n → (∀ s ∈ l, (m s).length = n) →
      ∀ i, i < n →
      relElem (l.foldl (fun a t => orArr a (m t)) acc) i
        = (relElem acc i || l.any (fun s => relElem (m s) i)) := by
  intro l
  induction l with
  | nil => intro acc _ _ i _; simp
  | cons t rest ih =>
    intro acc hacc hm i hi
    have h1 : (orArr acc (m t)).length = n := by
      rw [orArr_length, hacc, hm t (by simp)]; simp
    have h2 := ih (orArr acc (m t)) h1 (fun s hs => hm s (by simp [hs])) i hi
    have h3 : relElem (orArr acc (m t)) i = (relElem acc i || relElem (m t) i) :=
      relElem_orArr acc (m t) i (hacc ▸ hi) ((hm t (by simp)) ▸ hi)
    simp only [List.foldl_cons, h2, h3, List.any_cons]
    cases relElem acc i <;> simp

theorem _union_arrays_length (m : String → RelArray) (n : Nat) (l : List String)
    (hl : l ≠ []) (hm : ∀ s ∈ l, (m s).length = n) : (_union_arrays m l).length = n := by
  cases l with
  | nil => exact absurd rfl hl
  | cons s rest =>
    exact union_foldl_length m n rest (m s) (hm s (by simp)) (fun t ht => hm t (by simp [ht]))

theorem _union_arrays_elem (m : String → RelArray) (n : Nat) (l : List String)
    (hl : l ≠ []) (hm : ∀ s ∈ l, (m s).length = n) (i : Nat) (hi : i < n) :
    relElem (_union_arrays m l) i = l.any (fun s => relElem (m s) i) := by
  cases l with
  | nil => exact absurd rfl hl
  | cons s rest =>
    have := union_foldl_elem m n rest (m s) (hm s (by simp))
      (fun t ht => hm t (by simp [ht])) i hi
    simpa [_union_arrays, List.any_cons] using this

theorem _combine_relevance_elem (fmap rmap : String → RelArray) (n : Nat)
    (F R : List String) (hF : F ≠ []) (hR : R ≠ [])
    (hf : ∀ s ∈ F, (fmap s).length = n) (hr : ∀ s ∈ R, (rmap s).length = n)
    (i : Nat) (hi : i < n) :
    relElem (_combine_relevance fmap F rmap R) i
      = ((F.any fun s => relElem (fmap s) i) && (R.any fun s => relElem (rmap s) i)) := by
  have lF := _union_arrays_length fmap n F hF hf
  have lR := _union_arrays_length rmap n R hR hr
  have h := relElem_andArr (_union_arrays fmap F) (_union_arrays rmap R) i
    (lF ▸ hi) (lR ▸ hi)
  rw [_combine_relevance, h, _union_arrays_elem fmap n F hF hf i hi,
    _union_arrays_elem rmap n R hR hr i hi]

theorem seedList_ne_nil (F : Finset String) (h : F.Nonempty) : seedList F ≠ [] := by
  intro hnil
  rcases h with ⟨x, hx⟩
  have : x ∈ seedList F := by simpa [seedList, Finset.mem_sort] using hx
  simp [hnil] at this

theorem any_seedList_eq_decide (F : Finset String) (p : String → Bool) :
    (seedList F).any p = decide (∃ s ∈ F, p s = true) := by
  rcases h : (seedList F).any p with _ | _
  · symm
    simp only [decide_eq_false_iff_not]
    rintro ⟨s, hs, hp⟩
    have hmem : s ∈ seedList F := by simpa [seedList, Finset.mem_sort] using hs
    have := List.any_eq_true.mpr ⟨s, hmem, hp⟩
    rw [h] at this
    exact Bool.false_ne_true this
  · symm
    simp only [decide_eq_true_eq]
    rcases List.any_eq_true.mp h with ⟨s, hs, hp⟩
    exact ⟨s, by simpa [seedList, Finset.mem_sort] using hs, hp⟩

/-- Claim C1: for every dataflow graph (abstracted by the per-seed
reachability maps `fmap`/`rmap`, all arrays of length `n`) and every
non-empty forward seed set `F` and reverse seed set `R`, the combined
relevance array produced for `(F, R)` — the array `_get_rel_array` yields,
which `_set_seeds` installs for `is_relevant` under `seeds_active(F, R)` —
equals, entry by entry, the AND of the union (OR) of the per-seed arrays of
`F` with the union of the per-seed arrays of `R`.  The hypothesis `hcons`
states that every array already stored in the seed map is the
`_combine_relevance` of its key, which is how `_set_all_seeds` populates
the eager entries (lines 423-455). -/
theorem relevance_combined_is_and_of_unions
    (seed_map : SeedMap) (fmap rmap : String → RelArray) (F R : Finset String) (n : Nat)
    (hcons : ∀ F' R' arr, seed_map F' R' = some arr →
        arr = _combine_relevance fmap (seedList F') rmap (seedList R'))
    (hF : F.Nonempty) (hR : R.Nonempty)
    (hf : ∀ s, (fmap s).length = n) (hr : ∀ s, (rmap s).length = n)
    (i : Nat) (hi : i < n) :
    relElem (relevance_array seed_map fmap rmap F R) i
      = (decide (∃ s ∈ F, relElem (fmap s) i = true)
          && decide (∃ s ∈ R, relElem (rmap s) i = true)) := by
  have hchar : relElem (_combine_relevance fmap (seedList F) rmap (seedList R)) i
      = (decide (∃ s ∈ F, relElem (fmap s) i = true)
          && decide (∃ s ∈ R, relElem (rmap s) i = true)) := by
    rw [_combine_relevance_elem fmap rmap n (seedList F) (seedList R)
      (seedList_ne_nil F hF) (seedList_ne_nil R hR)
      (fun s _ => hf s) (fun s _ => hr s) i hi,
      any_seedList_eq_decide, any_seedList_eq_decide]
  unfold relevance_array _get_rel_array
  rcases hmap : seed_map F R with _ | arr
  · simpa using hchar
  · simpa using (hcons F R arr hmap) ▸ hchar

/-- Witness for C1 at a concrete two-variable model: seeds `F = {"a"}`,
`R = {"b"}`, empty seed-map cache. -/
theorem relevance_combined_is_and_of_unions_witness :
    ((∀ F' R' arr, (fun _ _ => none : SeedMap) F' R' = some arr →
        arr = _combine_relevance (fun s => if s = "a" then [true, false] else [false, false])
          (seedList F') (fun s => if s = "b" then [true, true] else [false, false])
          (seedList R'))
      ∧ ({"a"} : Finset String).Nonempty ∧ ({"b"} : Finset String).Nonempty ∧ (0 : Nat) < 2)
    ∧ relElem (relevance_array (fun _ _ => none)
        (fun s => if s = "a" then [true, false] else [false, false])
        (fun s => if s = "b" then [true, true] else [false, false]) {"a"} {"b"}) 0
      = (decide (∃ s ∈ ({"a"} : Finset String),
            relElem ((fun s => if s = "a" then [true, false] else [false, false]) s) 0 = true)
          && decide (∃ s ∈ ({"b"} : Finset String),
            relElem ((fun s => if s = "b" then [true, true] else [false, false]) s) 0 = true)) :=
  ⟨⟨fun _ _ _ h => by simp at h, by decide, by decide, by decide⟩,
    relevance_combined_is_and_of_unions (fun _ _ => none)
      (fun s => if s = "a" then [true, false] else [false, false])
      (fun s => if s = "b" then [true, true] else [false, false]) {"a"} {"b"} 2
      (fun _ _ _ h => by simp at h) (by decide) (by decide)
      (fun s => by by_cases h : s = "a" <;> simp [h])
      (fun s => by by_cases h : s = "b" <;> simp [h]) 0 (by decide)⟩

/-! ## C2: a Relevance engine built with an empty seed side is permanently
inactive and answers every query with `True` -/

theorem _set_seeds_keeps_active (s : RelState) (F R : Finset String) :
    (_set_seeds s F R).active = s.active := by
  unfold _set_seeds
  split <;> rfl

mutual

theorem runCmd_preserves_inactive : ∀ (c : Cmd) (s : RelState),
    s.active = some false → (runCmd c s).active = some false
  | Cmd.scopedActive b body, s, h => by
    have henter : active_enter b s = (s, Save.noop) := by
      simp [active_enter, h]
    simp only [runCmd, henter]
    exact runCmds_preserves_inactive body s h
  | Cmd.scopedSeeds f r body, s, h => by
    have henter : seeds_active_enter f r s = (s, Save.noop) := by
      simp [seeds_active_enter, h]
    simp only [runCmd, henter]
    exact runCmds_preserves_inactive body s h
  | Cmd.scopedAllSeeds body, s, h => by
    have henter : all_seeds_active_enter s = (s, Save.noop) := by
      simp [all_seeds_active_enter, h]
    simp only [runCmd, henter]
    exact runCmds_preserves_inactive body s h
  | Cmd.scopedNonlinear name act body, s, h => by
    have henter : activate_nonlinear_enter name act s = (s, Save.noop) := by
      simp [activate_nonlinear_enter, h]
    simp only [runCmd, henter]
    exact runCmds_preserves_inactive body s h
  | Cmd.setSeedsCmd f r, s, h => by
    simpa only [runCmd, _set_seeds_keeps_active] using h

theorem runCmds_preserves_inactive : ∀ (cs : List Cmd) (s : RelState),
    s.active = some false → (runCmds cs s).active = some false
  | [], _, h => h
  | c :: cs, s, h =>
    runCmds_preserves_inactive cs (runCmd c s) (runCmd_preserves_inactive c s h)

end

/-- Claim C2: an engine constructed with empty forward seed metadata or
empty reverse seed metadata has `_active = False` (never active), and —
whatever (scoped or direct) operations are subsequently run on it — both
`is_relevant` and `is_relevant_system` return `True` for *every* name,
including names absent from the graph tables. -/
theorem inactive_engine_permanently_answers_true
    (mkFull : RelState → RelState) (nl : String → Option RelArray)
    (fwdMeta revMeta : List String) (h : fwdMeta = [] ∨ revMeta = [])
    (cmds : List Cmd) (vname sname : String) :
    (runCmds cmds (relevance_init mkFull nl fwdMeta revMeta)).active = some false
    ∧ is_relevant (runCmds cmds (relevance_init mkFull nl fwdMeta revMeta)) vname
        = Except.ok true
    ∧ is_relevant_system (runCmds cmds (relevance_init mkFull nl fwdMeta revMeta)) sname
        = Except.ok true := by
  have hcond : ¬(fwdMeta ≠ [] ∧ revMeta ≠ []) := by
    rcases h with h | h <;> simp [h]
  have hinit : (relevance_init mkFull nl fwdMeta revMeta).active = some false := by
    simp [relevance_init, hcond]
  have hact := runCmds_preserves_inactive cmds _ hinit
  refine ⟨hact, ?_, ?_⟩
  · simp [is_relevant, hact]
  · simp [is_relevant_system, hact]

/-- Witness for C2: empty forward metadata, one reverse seed, a nest of
scopes run over the engine, and names (`"ghost"`, `"phantom"`) that appear
nowhere in the graph. -/
theorem inactive_engine_permanently_answers_true_witness :
    (([] : List String) = [] ∨ (["r"] : List String) = [])
    ∧ ((runCmds [Cmd.scopedSeeds none none [Cmd.scopedActive true []],
          Cmd.scopedAllSeeds [], Cmd.setSeedsCmd {"a"} {"b"}]
          (relevance_init id (fun _ => none) [] ["r"])).active = some false
       ∧ is_relevant (runCmds [Cmd.scopedSeeds none none [Cmd.scopedActive true []],
            Cmd.scopedAllSeeds [], Cmd.setSeedsCmd {"a"} {"b"}]
            (relevance_init id (fun _ => none) [] ["r"])) "ghost" = Except.ok true
       ∧ is_relevant_system (runCmds [Cmd.scopedSeeds none none [Cmd.scopedActive true []],
            Cmd.scopedAllSeeds [], Cmd.setSeedsCmd {"a"} {"b"}]
            (relevance_init id (fun _ => none) [] ["r"])) "phantom" = Except.ok true) :=
  ⟨Or.inl rfl,
    inactive_engine_permanently_answers_true id (fun _ => none) [] ["r"] (Or.inl rfl)
      [Cmd.scopedSeeds none none [Cmd.scopedActive true []],
        Cmd.scopedAllSeeds [], Cmd.setSeedsCmd {"a"} {"b"}] "ghost" "phantom"⟩

/-! ## C3 / C4: what the scoped-activation context managers restore -/

theorem apply_save_keeps_arrays (sv : Save) (t : RelState) :
    (apply_save sv t).currentVarArray = t.currentVarArray
    ∧ (apply_save sv t).currentSysArray = t.currentSysArray := by
  cases sv <;> simp [apply_save]

/-- Counterexample to C3 as stated: on `leakState` (an active engine whose
current combined variable array is `[true]`), entering and immediately
exiting `seeds_active()` leaves the current combined variable array at the
value installed by the scope (`[false]`), not at its pre-scope value — the
`finally:` block of `seeds_active` (lines 594-596) restores `_seed_vars`
and `_active` but not `_current_rel_varray`/`_current_rel_sarray`. -/
theorem seeds_scope_does_not_restore_current_arrays :
    (apply_save (seeds_active_enter none none leakState).2
        (seeds_active_enter none none leakState).1).currentVarArray
      ≠ leakState.currentVarArray := by decide

/-- Claim C3 (amended): exiting `seeds_active` / `all_seeds_active` on any
path restores the active flag and the current seed sets to their pre-scope
values, and exiting `active(b)` restores the active flag; if the engine is
globally inactive (`_active is False`) all three scopes (and
`activate_nonlinear`) are no-ops on entry and their exits change nothing,
so an inactive engine is never flipped active; however, the current
combined variable and system relevance arrays are NOT restored on exit —
whatever value they hold inside the scope survives the scope boundary. -/
theorem scoped_activation_restores_flag_and_seeds_not_arrays
    (f r : Option (List String)) (b : Bool) (name : String) (act : Bool)
    (s inner : RelState) :
    (s.active ≠ some false →
       (apply_save (seeds_active_enter f r s).2 inner).fwdSeeds = s.fwdSeeds
       ∧ (apply_save (seeds_active_enter f r s).2 inner).revSeeds = s.revSeeds
       ∧ (apply_save (seeds_active_enter f r s).2 inner).active = s.active
       ∧ (apply_save (all_seeds_active_enter s).2 inner).fwdSeeds = s.fwdSeeds
       ∧ (apply_save (all_seeds_active_enter s).2 inner).revSeeds = s.revSeeds
       ∧ (apply_save (all_seeds_active_enter s).2 inner).active = s.active)
    ∧ (s.active = some true → (apply_save (active_enter b s).2 inner).active = s.active)
    ∧ (s.active ≠ some true → active_enter b s = (s, Save.noop))
    ∧ (s.active = some false →
        seeds_active_enter f r s = (s, Save.noop)
        ∧ all_seeds_active_enter s = (s, Save.noop)
        ∧ activate_nonlinear_enter name act s = (s, Save.noop))
    ∧ (apply_save (seeds_active_enter f r s).2 inner).currentVarArray
        = inner.currentVarArray
    ∧ (apply_save (seeds_active_enter f r s).2 inner).currentSysArray
        = inner.currentSysArray
    ∧ (apply_save (all_seeds_active_enter s).2 inner).currentVarArray
        = inner.currentVarArray
    ∧ apply_save Save.noop inner = inner := by
  refine ⟨?_, ?_, ?_, ?_, ?_, ?_, ?_, rfl⟩
  · intro hne
    have h1 : (seeds_active_enter f r s).2 = Save.fromSeeds s.fwdSeeds s.revSeeds s.active := by
      unfold seeds_active_enter
      rw [if_neg hne]
    have h2 : (all_seeds_active_enter s).2
        = Save.fromSeeds s.fwdSeeds s.revSeeds s.active := by
      unfold all_seeds_active_enter
      rw [if_neg hne]
    simp [h1, h2, apply_save]
  · intro htrue
    have h1 : (active_enter b s).2 = Save.fromActive s.active := by
      unfold active_enter
      rw [if_pos htrue]
    simp [h1, apply_save]
  · intro hne
    unfold active_enter
    rw [if_neg hne]
  · intro hfalse
    refine ⟨?_, ?_, ?_⟩
    · unfold seeds_active_enter
      rw [if_pos hfalse]
    · unfold all_seeds_active_enter
      rw [if_pos hfalse]
    · unfold activate_nonlinear_enter
      rw [if_pos (Or.inr (Or.inl hfalse))]
  · exact (apply_save_keeps_arrays _ _).1
  · exact (apply_save_keeps_arrays _ _).2
  · exact (apply_save_keeps_arrays _ _).1

/-- Witness for (amended) C3 on the concrete active engine `leakState`. -/
theorem scoped_activation_restores_flag_and_seeds_not_arrays_witness :
    leakState.active ≠ some false
    ∧ (apply_save (seeds_active_enter none none leakState).2 leakState).fwdSeeds
        = leakState.fwdSeeds
    ∧ (apply_save (seeds_active_enter none none leakState).2 leakState).active
        = leakState.active
    ∧ leakState.active = some true
    ∧ (apply_save (active_enter false leakState).2 leakState).active = leakState.active
    ∧ apply_save Save.noop leakState = leakState :=
  ⟨by decide,
    ((scoped_activation_restores_flag_and_seeds_not_arrays none none false "pre" true
        leakState leakState).1 (by decide)).1,
    ((scoped_activation_restores_flag_and_seeds_not_arrays none none false "pre" true
        leakState leakState).1 (by decide)).2.2.1,
    by decide,
    (scoped_activation_restores_flag_and_seeds_not_arrays none none false "pre" true
        leakState leakState).2.1 (by decide),
    (scoped_activation_restores_flag_and_seeds_not_arrays none none false "pre" true
        leakState leakState).2.2.2.2.2.2.2⟩

/-- Counterexample to C4 as stated: on the active engine `nlState` with a
`'pre'` nonlinear set, entering and immediately exiting
`activate_nonlinear('pre')` leaves the current system relevance array at
the `'pre'` partition array, not at its pre-scope value — the `finally:`
of `activate_nonlinear` (lines 623-624) restores only `_active`. -/
theorem activate_nonlinear_does_not_restore_sarray :
    (apply_save (activate_nonlinear_enter "pre" true nlState).2
        (activate_nonlinear_enter "pre" true nlState).1).currentSysArray
      ≠ nlState.currentSysArray := by decide

/-- Claim C4 (amended): when `activate_nonlinear(name)` actually activates
(engine not inactive, `name` among the nonlinear sets), entry overwrites
the current system relevance array with the named partition array, and exit
(normal or abnormal, via the `finally:` restore) restores the active flag
but NOT the current system relevance array: the array value present inside
the scope survives the exit unchanged. -/
theorem activate_nonlinear_restores_flag_keeps_override
    (name : String) (act : Bool) (s inner : RelState)
    (h : ¬(¬act ∨ s.active = some false ∨ s.nonlinearSets name = none)) :
    (activate_nonlinear_enter name act s).1.currentSysArray = s.nonlinearSets name
    ∧ (apply_save (activate_nonlinear_enter name act s).2 inner).active = s.active
    ∧ (apply_save (activate_nonlinear_enter name act s).2 inner).currentSysArray
        = inner.currentSysArray := by
  have he : activate_nonlinear_enter name act s
      = ({ s with active := some true, currentSysArray := s.nonlinearSets name },
         Save.fromNonlinear s.active) := by
    unfold activate_nonlinear_enter
    rw [if_neg h]
  simp [he, apply_save]

/-- Witness for (amended) C4 on `nlState`. -/
theorem activate_nonlinear_restores_flag_keeps_override_witness :
    ¬(¬true ∨ nlState.active = some false ∨ nlState.nonlinearSets "pre" = none)
    ∧ ((activate_nonlinear_enter "pre" true nlState).1.currentSysArray
          = nlState.nonlinearSets "pre"
       ∧ (apply_save (activate_nonlinear_enter "pre" true nlState).2
            (activate_nonlinear_enter "pre" true nlState).1).active = nlState.active
       ∧ (apply_save (activate_nonlinear_enter "pre" true nlState).2
            (activate_nonlinear_enter "pre" true nlState).1).currentSysArray
          = (activate_nonlinear_enter "pre" true nlState).1.currentSysArray) :=
  ⟨by decide,
    activate_nonlinear_restores_flag_keeps_override "pre" true nlState
      (activate_nonlinear_enter "pre" true nlState).1 (by decide)⟩

/-! ## C10: active queries are partial on the index tables -/

/-- Claim C10: when the engine is active, `is_relevant` /
`is_relevant_system` index `_var2idx` / `_sys2idx`; a name absent from the
corresponding table raises `KeyError` instead of returning a boolean — in
contrast with an engine that is not active, which returns `True` for every
name whatsoever. -/
theorem active_queries_raise_keyerror_for_unknown_names
    (s : RelState) (vname sname : String)
    (ha : s.active = some true)
    (hv : lookupIdx s.var2idx vname = none) (hs : lookupIdx s.sys2idx sname = none) :
    is_relevant s vname = Except.error PyError.keyError
    ∧ is_relevant_system s sname = Except.error PyError.keyError
    ∧ ∀ t : RelState, t.active ≠ some true →
        ∀ nm : String, is_relevant t nm = Except.ok true
          ∧ is_relevant_system t nm = Except.ok true := by
  refine ⟨?_, ?_, ?_⟩
  · simp [is_relevant, ha, hv]
  · simp [is_relevant_system, ha, hs]
  · intro t ht nm
    exact ⟨by simp [is_relevant, ht], by simp [is_relevant_system, ht]⟩

/-- Witness for C10: `leakState` is active and its tables know nothing
about `"zz"`. -/
theorem active_queries_raise_keyerror_for_unknown_names_witness :
    (leakState.active = some true
      ∧ lookupIdx leakState.var2idx "zz" = none
      ∧ lookupIdx leakState.sys2idx "zz" = none)
    ∧ (is_relevant leakState "zz" = Except.error PyError.keyError
       ∧ is_relevant_system leakState "zz" = Except.error PyError.keyError
       ∧ ∀ t : RelState, t.active ≠ some true →
           ∀ nm : String, is_relevant t nm = Except.ok true
             ∧ is_relevant_system t nm = Except.ok true) :=
  ⟨⟨by decide, by decide, by decide⟩,
    active_queries_raise_keyerror_for_unknown_names leakState "zz" "zz"
      (by decide) (by decide) (by decide)⟩

/-! ## C8: the content-hash cache and the seed map are reference-stable -/

theorem lookupAssoc_append_self {α β : Type} [DecidableEq α] :
    ∀ (l : List (α × β)) (k : α) (v : β), lookupAssoc l k = none →
      lookupAssoc (l ++ [(k, v)]) k = some v
  | [], k, v, _ => by simp [lookupAssoc]
  | (k0, v0) :: rest, k, v, h => by
    by_cases hk : k0 = k
    · simp [lookupAssoc, hk] at h
    · simp only [lookupAssoc, hk, if_false, List.cons_append] at h ⊢
      exact lookupAssoc_append_self rest k v h

theorem cached_ref_seedMap_eq (st : CacheState) (a : RelArray) :
    (_get_cached_array_ref st a).1.seedMap = st.seedMap := by
  unfold _get_cached_array_ref
  split <;> rfl

theorem cached_ref_hit (st : CacheState) (a : RelArray) (j : Nat)
    (h : lookupAssoc st.hashMap (array_hash a) = some j) :
    _get_cached_array_ref st a = (st, j) := by
  unfold _get_cached_array_ref
  rw [h]

theorem cached_ref_lookup_after (st : CacheState) (a : RelArray) :
    lookupAssoc (_get_cached_array_ref st a).1.hashMap (array_hash a)
      = some (_get_cached_array_ref st a).2 := by
  unfold _get_cached_array_ref
  rcases h : lookupAssoc st.hashMap (array_hash a) with _ | j
  · simp only [h]
    exact lookupAssoc_append_self _ _ _ h
  · simp only [h]

theorem rel_ref_hit (fmap rmap : String → RelArray) (st : CacheState)
    (F R : Finset String) (j : Nat) (h : lookupAssoc st.seedMap (F, R) = some j) :
    _get_rel_array_ref fmap rmap st F R = (st, j) := by
  unfold _get_rel_array_ref
  rw [h]

theorem rel_ref_lookup_after (fmap rmap : String → RelArray) (st : CacheState)
    (F R : Finset String) :
    lookupAssoc (_get_rel_array_ref fmap rmap st F R).1.seedMap (F, R)
      = some (_get_rel_array_ref fmap rmap st F R).2 := by
  unfold _get_rel_array_ref
  rcases h : lookupAssoc st.seedMap (F, R) with _ | j
  · simp only [h]
    exact lookupAssoc_append_self _ _ _
      (by rw [cached_ref_seedMap_eq]; exact h)
  · simp only [h]

/-- Claim C8: requesting the combined relevance array a second time with
the same `(F, R)` key returns the very array reference the first request
created and cached (the cache-lookup result) and leaves the cache state
untouched; and re-publishing a structurally equal array through the
content-hash cache resolves to the same stored canonical reference. -/
theorem relevance_cache_reference_stable (fmap rmap : String → RelArray)
    (st : CacheState) (F R : Finset String) (a : RelArray) :
    ((_get_rel_array_ref fmap rmap (_get_rel_array_ref fmap rmap st F R).1 F R).2
        = (_get_rel_array_ref fmap rmap st F R).2
      ∧ (_get_rel_array_ref fmap rmap (_get_rel_array_ref fmap rmap st F R).1 F R).1
        = (_get_rel_array_ref fmap rmap st F R).1)
    ∧ (_get_cached_array_ref (_get_cached_array_ref st a).1 a).2
        = (_get_cached_array_ref st a).2 := by
  have h2 := rel_ref_hit fmap rmap (_get_rel_array_ref fmap rmap st F R).1 F R
    (_get_rel_array_ref fmap rmap st F R).2 (rel_ref_lookup_after fmap rmap st F R)
  have h3 := cached_ref_hit (_get_cached_array_ref st a).1 a
    (_get_cached_array_ref st a).2 (cached_ref_lookup_after st a)
  exact ⟨⟨by rw [h2], by rw [h2]⟩, by rw [h3]⟩

/-! ## C9: same-colored seeds with overlapping relevance raise a gathered
RuntimeError naming the color and the seeds -/

theorem mem_insertSorted (a x : String) (l : List String) :
    x ∈ insertSorted a l ↔ x = a ∨ x ∈ l := by
  induction l with
  | nil => simp [insertSorted]
  | cons b rest ih =>
    by_cases h : a ≤ b
    · simp [insertSorted, h]
    · simp only [insertSorted, if_neg h, List.mem_cons, ih]
      tauto

theorem mem_sortStrings (x : String) (l : List String) :
    x ∈ sortStrings l ↔ x ∈ l := by
  induction l with
  | nil => simp [sortStrings]
  | cons a rest ih => simp [sortStrings, mem_insertSorted, ih]

theorem mem_overlapNames (dct : List (String × RelSet)) (A : String) (rsA : RelSet)
    (hA : (A, rsA) ∈ dct) (B : String) (rsB : RelSet) (hB : (B, rsB) ∈ dct)
    (hne : B ≠ A) (x : String) (hx1 : x ∈ rsA) (hx2 : x ∈ rsB) :
    A ∈ overlapNames dct := by
  unfold overlapNames
  rw [List.mem_flatMap]
  refine ⟨(A, rsA), hA, ?_⟩
  rw [List.mem_map]
  refine ⟨(B, rsB), ?_, rfl⟩
  rw [List.mem_filter]
  refine ⟨hB, ?_⟩
  simp only [Bool.and_eq_true, decide_eq_true_eq, List.any_eq_true]
  exact ⟨hne, x, hx1, hx2⟩

/-- Claim C9: if on some worker two distinct seeds `A`, `B` of the same
parallel-derivative color `c` have intersecting relevance sets, then the
check raises `RuntimeError` (for *every* worker rank the same diagnostic,
built from the allgathered per-worker error dicts) and the diagnostic
contains a line naming color `c` whose sorted name list contains both `A`
and `B` (with the mode-appropriate variable-type word). -/
theorem par_deriv_overlap_error (mode : String) (allChks : List PdChk)
    (w : Nat) (hw : w < allChks.length) (c A B : String) (rsA rsB : RelSet)
    (dct : List (String × RelSet)) (hc : (c, dct) ∈ allChks.get ⟨w, hw⟩)
    (hA : (A, rsA) ∈ dct) (hB : (B, rsB) ∈ dct) (hAB : A ≠ B)
    (x : String) (hxA : x ∈ rsA) (hxB : x ∈ rsB) :
    ∃ msg, (∀ rank : Nat, _par_deriv_err_check mode allChks rank = Except.error msg)
      ∧ ∃ names, (c, names, vtypeOf mode) ∈ msg ∧ A ∈ names ∧ B ∈ names := by
  have hAmem : A ∈ overlapNames dct :=
    mem_overlapNames dct A rsA hA B rsB hB (Ne.symm hAB) x hxA hxB
  have hBmem : B ∈ overlapNames dct :=
    mem_overlapNames dct B rsB hB A rsA hA hAB x hxB hxA
  have hnames : overlapNames dct ≠ [] := List.ne_nil_of_mem hAmem
  have herrs : (c, overlapNames dct) ∈ computeParDerivErrs (allChks.get ⟨w, hw⟩) := by
    unfold computeParDerivErrs
    rw [List.mem_filterMap]
    refine ⟨(c, dct), hc, ?_⟩
    simp only [if_neg hnames]
  have hErrsMem : computeParDerivErrs (allChks.get ⟨w, hw⟩)
      ∈ allChks.map computeParDerivErrs :=
    List.mem_map.mpr ⟨allChks.get ⟨w, hw⟩, List.get_mem allChks w hw, rfl⟩
  have hline : (c, sortStrings (overlapNames dct), vtypeOf mode)
      ∈ buildParDerivMsg mode (allChks.map computeParDerivErrs) := by
    unfold buildParDerivMsg
    rw [List.mem_flatMap]
    refine ⟨computeParDerivErrs (allChks.get ⟨w, hw⟩), hErrsMem, ?_⟩
    rw [List.mem_map]
    exact ⟨(c, overlapNames dct), herrs, rfl⟩
  refine ⟨buildParDerivMsg mode (allChks.map computeParDerivErrs), ?_, ?_⟩
  · intro rank
    unfold _par_deriv_err_check
    rw [if_neg (List.ne_nil_of_mem hline)]
  · exact ⟨sortStrings (overlapNames dct), hline,
      (mem_sortStrings A _).mpr hAmem, (mem_sortStrings B _).mpr hBmem⟩

/-- Witness for C9: worker 0 has color `"par"` with design variables
`"dv1"`, `"dv2"` both reaching node `"m"`. -/
theorem par_deriv_overlap_error_witness :
    ((0 : Nat) < ([[("par", [("dv1", ["m"]), ("dv2", ["m"])])]] : List PdChk).length
      ∧ ("dv1", ["m"]) ∈ [("dv1", (["m"] : RelSet)), ("dv2", ["m"])]
      ∧ ("dv2", ["m"]) ∈ [("dv1", (["m"] : RelSet)), ("dv2", ["m"])]
      ∧ "dv1" ≠ "dv2" ∧ "m" ∈ (["m"] : RelSet))
    ∧ ∃ msg, (∀ rank : Nat,
        _par_deriv_err_check "fwd" [[("par", [("dv1", ["m"]), ("dv2", ["m"])])]] rank
          = Except.error msg)
      ∧ ∃ names, ("par", names, vtypeOf "fwd") ∈ msg ∧ "dv1" ∈ names ∧ "dv2" ∈ names :=
  ⟨⟨by decide, by decide, by decide, by decide, by decide⟩,
    par_deriv_overlap_error "fwd" [[("par", [("dv1", ["m"]), ("dv2", ["m"])])]]
      0 (by decide) "par" "dv1" "dv2" ["m"] ["m"]
      [("dv1", ["m"]), ("dv2", ["m"])] (by decide) (by decide) (by decide)
      (by decide) "m" (by decide) (by decide)⟩

/-! ## C7: which multiplier scales the assembled blocks -/

/-- Counterexample to C7 as stated: with two uncolored groups whose step
data differ (`data = 1` for wrt `"a"`, `data = 2` for wrt `"b"`) and a
probe always returning `[1]`, the block of group `"a"` comes out as `[[2]]`
— scaled by the multiplier of the LAST group's data (`getMult 2 = 2`),
not by its own group's multiplier (`getMult 1 = 1`, which would give
`[[1]]`).  Line 365 computes `mult` once from the stale loop variable
`data` and line 412 applies it to every staging block. -/
theorem approx_multiplier_not_per_group :
    _compute_approximations_serial cexGetMult cexProbe cexTransform [cexGroupA, cexGroupB]
      = Except.ok (none, [("a", [[2]]), ("b", [[2]])])
    ∧ (assembleColumns cexProbe cexTransform cexGroupA).map
        (fun col => col.map (fun v => v * cexGetMult cexGroupA.data)) = [[1]]
    ∧ ([[(2 : Int)]] : List (List Int)) ≠ [[(1 : Int)]] :=
  ⟨by rfl, by rfl, by decide⟩

/-- Claim C7 (amended): after all probes, every assembled block — the
colored data and each wrt staging buffer — is scaled by the single
multiplier `_get_multiplier(data)` computed from the step data of the
*last* approximation group; when all groups share the same step data (in
particular whenever there is a single group), that single multiplier
coincides with each block's own group multiplier, which is what the claim
intended. -/
theorem approx_blocks_scaled_by_own_multiplier_when_data_uniform
    (getMult : Nat → Int) (probe : Option String → List Nat → List Int)
    (transform : List Int → List Int) (groups : List ApproxGroup) (d : Nat)
    (hne : groups ≠ []) (hd : ∀ g ∈ groups, g.data = d) :
    _compute_approximations_serial getMult probe transform groups
      = Except.ok
        ((if groups.any (fun g => g.wrt.isNone) then
            some (if getMult d ≠ 1 then
                ((groups.filter (fun g => g.wrt.isNone)).flatMap
                  (fun g => (assembleColumns probe transform g).flatten)).map
                  (fun v => v * getMult d)
              else (groups.filter (fun g => g.wrt.isNone)).flatMap
                  (fun g => (assembleColumns probe transform g).flatten))
          else none),
         groups.filterMap (fun g =>
           match g.wrt with
           | some w => some (w, (assembleColumns probe transform g).map
               (fun col => col.map (fun v => v * getMult g.data)))
           | none => none)) := by
  have hlast : groups.getLast? = some (groups.getLast hne) :=
    List.getLast?_eq_getLast groups hne
  have hld : (groups.getLast hne).data = d := hd _ (List.getLast_mem hne)
  have hmaps : groups.filterMap (fun g =>
      match g.wrt with
      | some w => some (w, (assembleColumns probe transform g).map
          (fun col => col.map (fun v => v * getMult d)))
      | none => none)
      = groups.filterMap (fun g =>
      match g.wrt with
      | some w => some (w, (assembleColumns probe transform g).map
          (fun col => col.map (fun v => v * getMult g.data)))
      | none => none) := by
    apply List.filterMap_congr
    intro g hg
    rw [hd g hg]
  unfold _compute_approximations_serial
  rw [hlast]
  simp only [hld, hmaps]

/-- Witness for (amended) C7: a single uncolored group, uniform step data. -/
theorem approx_blocks_scaled_by_own_multiplier_witness :
    (([cexGroupA] : List ApproxGroup) ≠ []
      ∧ ∀ g ∈ ([cexGroupA] : List ApproxGroup), g.data = 1)
    ∧ _compute_approximations_serial cexGetMult cexProbe cexTransform [cexGroupA]
      = Except.ok
        ((if ([cexGroupA] : List ApproxGroup).any (fun g => g.wrt.isNone) then
            some (if cexGetMult 1 ≠ 1 then
                ((([cexGroupA] : List ApproxGroup).filter (fun g => g.wrt.isNone)).flatMap
                  (fun g => (assembleColumns cexProbe cexTransform g).flatten)).map
                  (fun v => v * cexGetMult 1)
              else (([cexGroupA] : List ApproxGroup).filter (fun g => g.wrt.isNone)).flatMap
                  (fun g => (assembleColumns cexProbe cexTransform g).flatten))
          else none),
         ([cexGroupA] : List ApproxGroup).filterMap (fun g =>
           match g.wrt with
           | some w => some (w, (assembleColumns cexProbe cexTransform g).map
               (fun col => col.map (fun v => v * cexGetMult g.data)))
           | none => none)) :=
  ⟨⟨by decide, by decide⟩,
    approx_blocks_scaled_by_own_multiplier_when_data_uniform cexGetMult cexProbe
      cexTransform [cexGroupA] 1 (by decide) (by decide)⟩

/-! ## C6: what `_update_coloring` keeps, merges and drops -/

theorem uc_fold_newList (wm : List String) (c : Option Nat) :
    ∀ (lst : List AEntry) (st : UCState),
      (lst.foldl (ucStep wm c) st).newList
        = st.newList ++ (match c with
            | none => lst.filter (entryMatches wm)
            | some _ => []) := by
  intro lst
  induction lst with
  | nil => intro st; cases c <;> simp
  | cons e rest ih =>
    intro st
    cases hm : entryMatches wm e with
    | true =>
      cases c with
      | none =>
        simp only [List.foldl_cons, ucStep, hm, if_true, ih, List.filter_cons]
        simp
      | some cv =>
        simp only [List.foldl_cons, ucStep, hm, if_true]
        cases hp : st.pending with
        | none => simp [ih]
        | some fa => simp [ih]
    | false =>
      simp only [List.foldl_cons, ucStep, hm, List.filter_cons]
      simp only [Bool.false_eq_true, if_false, ih, hm]

theorem uc_fold_ck_mem (wm : List String) (c : Option Nat) :
    ∀ (lst : List AEntry) (st : UCState) (k : Option String × Option String),
      (k ∈ (lst.foldl (ucStep wm c) st).coloredKeys
        ↔ k ∈ st.coloredKeys ∨ ∃ e ∈ lst, entryMatches wm e = true ∧ e.key = k) := by
  intro lst
  induction lst with
  | nil => intro st k; simp
  | cons e rest ih =>
    intro st k
    cases hm : entryMatches wm e with
    | true =>
      have hstep : (ucStep wm c st e).coloredKeys
          = (if e.key ∈ st.coloredKeys then st.coloredKeys
             else st.coloredKeys ++ [e.key]) := by
        cases c with
        | none => simp [ucStep, hm]
        | some cv =>
          cases hp : st.pending with
          | none => simp [ucStep, hm, hp]
          | some fa => simp [ucStep, hm, hp]
      have hckm : k ∈ (ucStep wm c st e).coloredKeys
          ↔ k ∈ st.coloredKeys ∨ e.key = k := by
        rw [hstep]
        by_cases hk : e.key ∈ st.coloredKeys
        · rw [if_pos hk]
          constructor
          · exact fun h => Or.inl h
          · rintro (h | h)
            · exact h
            · exact h ▸ hk
        · rw [if_neg hk]
          simp [eq_comm]
      rw [List.foldl_cons, ih, hckm]
      constructor
      · rintro ((h | h) | h)
        · exact Or.inl h
        · exact Or.inr ⟨e, by simp, hm, h⟩
        · rcases h with ⟨e2, he2, hm2, hk2⟩
          exact Or.inr ⟨e2, by simp [he2], hm2, hk2⟩
      · rintro (h | h)
        · exact Or.inl (Or.inl h)
        · rcases h with ⟨e2, he2, hm2, hk2⟩
          rcases List.mem_cons.mp he2 with he2 | he2
          · exact Or.inl (Or.inr (he2 ▸ hk2))
          · exact Or.inr ⟨e2, he2, hm2, hk2⟩
    | false =>
      have hstep : ucStep wm c st e = st := by
        simp [ucStep, hm]
      rw [List.foldl_cons, hstep, ih]
      constructor
      · rintro (h | ⟨e2, he2, hm2, hk2⟩)
        · exact Or.inl h
        · exact Or.inr ⟨e2, by simp [he2], hm2, hk2⟩
      · rintro (h | ⟨e2, he2, hm2, hk2⟩)
        · exact Or.inl h
        · rcases List.mem_cons.mp he2 with he2 | he2
          · rw [he2] at hm2
            rw [hm] at hm2
            exact absurd hm2 (by simp)
          · exact Or.inr ⟨e2, he2, hm2, hk2⟩

theorem uc_fold_pending_none (wm : List String) :
    ∀ (lst : List AEntry) (st : UCState),
      (lst.foldl (ucStep wm none) st).pending = st.pending := by
  intro lst
  induction lst with
  | nil => intro st; rfl
  | cons e rest ih =>
    intro st
    cases hm : entryMatches wm e with
    | true => simp only [List.foldl_cons, ucStep, hm, if_true]; exact ih _
    | false =>
      simp only [List.foldl_cons, ucStep, hm]
      simp only [Bool.false_eq_true, if_false]
      exact ih _

theorem uc_fold_pending_some (wm : List String) (cv : Nat) :
    ∀ (lst : List AEntry) (st : UCState),
      (lst.foldl (ucStep wm (some cv)) st).pending
        = match st.pending with
          | some fa => some (fa.1, fa.2 ++ (lst.filter (entryMatches wm)).map AEntry.toPlain)
          | none =>
            match lst.filter (entryMatches wm) with
            | [] => none
            | f :: rest => some (f, (f :: rest).map AEntry.toPlain) := by
  intro lst
  induction lst with
  | nil =>
    intro st
    rcases hps : st.pending with _ | fa <;> simp [hps]
  | cons e rest ih =>
    intro st
    cases hm : entryMatches wm e with
    | true =>
      cases hp : st.pending with
      | none =>
        simp only [List.foldl_cons, ucStep, hm, if_true, hp, ih, List.filter_cons]
        simp
      | some fa =>
        simp only [List.foldl_cons, ucStep, hm, if_true, hp, ih, List.filter_cons]
        simp
    | false =>
      simp only [List.foldl_cons, ucStep, hm, List.filter_cons]
      simp only [Bool.false_eq_true, if_false, ih, hm]

theorem _update_coloring_eq (wm : List String) (c : Option Nat) (lst : List AEntry) :
    _update_coloring wm c lst =
      if (lst.foldl (ucStep wm c) ⟨[], none, []⟩).coloredKeys ≠ [] then
        (match c, (lst.foldl (ucStep wm c) ⟨[], none, []⟩).pending with
          | some cv, some fa =>
            (lst.foldl (ucStep wm c) ⟨[], none, []⟩).newList
              ++ [mkColoredEntry cv fa.1 fa.2]
          | _, _ => (lst.foldl (ucStep wm c) ⟨[], none, []⟩).newList)
        ++ lst.filter (fun t =>
            decide (t.key ∉ (lst.foldl (ucStep wm c) ⟨[], none, []⟩).coloredKeys))
      else lst := rfl

theorem uc_fold_ck_nil_iff (wm : List String) (c : Option Nat) (lst : List AEntry) :
    (lst.foldl (ucStep wm c) ⟨[], none, []⟩).coloredKeys = []
      ↔ lst.filter (entryMatches wm) = [] := by
  constructor
  · intro h
    rw [List.filter_eq_nil_iff]
    intro e he hme
    have : e.key ∈ (lst.foldl (ucStep wm c) ⟨[], none, []⟩).coloredKeys :=
      (uc_fold_ck_mem wm c lst ⟨[], none, []⟩ e.key).mpr (Or.inr ⟨e, he, hme, rfl⟩)
    rw [h] at this
    simp at this
  · intro h
    rw [List.eq_nil_iff_forall_not_mem]
    intro k hk
    rcases (uc_fold_ck_mem wm c lst ⟨[], none, []⟩ k).mp hk with h0 | ⟨e, he, hme, _⟩
    · simp at h0
    · have : e ∈ lst.filter (entryMatches wm) := List.mem_filter.mpr ⟨he, hme⟩
      rw [h] at this
      simp at this

theorem uc_fold_ck_mem_keys (wm : List String) (c : Option Nat) (lst : List AEntry)
    (k : Option String × Option String) :
    k ∈ (lst.foldl (ucStep wm c) ⟨[], none, []⟩).coloredKeys
      ↔ k ∈ (lst.filter (entryMatches wm)).map AEntry.key := by
  rw [uc_fold_ck_mem]
  simp only [List.not_mem_nil, false_or, List.mem_map, List.mem_filter]
  constructor
  · rintro ⟨e, he, hme, hk⟩
    exact ⟨e, ⟨he, hme⟩, hk⟩
  · rintro ⟨e, ⟨he, hme⟩, hk⟩
    exact ⟨e, he, hme, hk⟩

theorem uc_fold_filter_eq (wm : List String) (c : Option Nat) (lst : List AEntry) :
    lst.filter (fun t =>
        decide (t.key ∉ (lst.foldl (ucStep wm c) ⟨[], none, []⟩).coloredKeys))
      = lst.filter (fun t =>
        decide (t.key ∉ (lst.filter (entryMatches wm)).map AEntry.key)) := by
  apply List.filter_congr
  intro t _
  rw [decide_eq_decide]
  exact not_congr (uc_fold_ck_mem_keys wm c lst t.key)

/-- Claim C6 (amended): with `coloring = None`, `_update_coloring` keeps
every matching request — duplicate `(of, wrt)` keys among the matching
requests included, so same-keyed matching requests do NOT collapse — and
drops exactly the non-matching requests whose key equals some matching
request's key; with a non-`None` coloring it replaces the matching requests
by the single synthetic `(None, None)` entry carrying the coloring and all
absorbed requests in order, and drops every original request whose key is a
colored key; with no matching request the list is returned unchanged. -/
theorem _update_coloring_char (wm : List String) (lst : List AEntry) :
    (lst.filter (entryMatches wm) = [] → ∀ c, _update_coloring wm c lst = lst)
    ∧ (lst.filter (entryMatches wm) ≠ [] →
        _update_coloring wm none lst
          = lst.filter (entryMatches wm)
            ++ lst.filter (fun t =>
                decide (t.key ∉ (lst.filter (entryMatches wm)).map AEntry.key)))
    ∧ (∀ cv f rest, lst.filter (entryMatches wm) = f :: rest →
        _update_coloring wm (some cv) lst
          = mkColoredEntry cv f ((f :: rest).map AEntry.toPlain)
            :: lst.filter (fun t =>
                decide (t.key ∉ (lst.filter (entryMatches wm)).map AEntry.key))) := by
  refine ⟨?_, ?_, ?_⟩
  · intro h c
    rw [_update_coloring_eq]
    rw [if_neg (by simpa using (uc_fold_ck_nil_iff wm c lst).mpr h)]
  · intro h
    rw [_update_coloring_eq]
    rw [if_pos (by simpa using fun h0 => h ((uc_fold_ck_nil_iff wm none lst).mp h0))]
    rw [uc_fold_filter_eq]
    have hnl := uc_fold_newList wm none lst ⟨[], none, []⟩
    simp only [List.nil_append] at hnl
    simp only [hnl]
  · intro cv f rest hfr
    rw [_update_coloring_eq]
    rw [if_pos (by
      simp only [ne_eq, uc_fold_ck_nil_iff wm (some cv) lst, hfr]
      simp)]
    rw [uc_fold_filter_eq]
    have hnl := uc_fold_newList wm (some cv) lst ⟨[], none, []⟩
    simp only [List.nil_append] at hnl
    have hp := uc_fold_pending_some wm cv lst ⟨[], none, []⟩
    simp only [hfr] at hp
    simp only [hnl, hp, List.nil_append, List.singleton_append]

/-- Counterexample to C6 as stated: two identical requests with key
`(some "o", some "w")`, whose `wrt` matches the coloring's column set, both
survive `_update_coloring(..., coloring=None)` — the result holds two
entries with the same key, not at most one. -/
theorem update_coloring_none_keeps_duplicate_keys :
    entryMatches ["w"] cexReq = true
    ∧ _update_coloring ["w"] none [cexReq, cexReq] = [cexReq, cexReq]
    ∧ ¬(((_update_coloring ["w"] none [cexReq, cexReq]).filter
          (fun e => decide (e.key = cexReq.key))).length ≤ 1) :=
  ⟨rfl, rfl, by decide⟩

/-- Witness for (amended) C6 on the duplicate-request list. -/
theorem _update_coloring_char_witness :
    (([cexReq, cexReq] : List AEntry).filter (entryMatches ["w"]) ≠ []
      ∧ ([cexReq, cexReq] : List AEntry).filter (entryMatches ["w"]) = [cexReq, cexReq])
    ∧ _update_coloring ["w"] none [cexReq, cexReq]
        = ([cexReq, cexReq] : List AEntry).filter (entryMatches ["w"])
          ++ ([cexReq, cexReq] : List AEntry).filter (fun t =>
              decide (t.key ∉ (([cexReq, cexReq] : List AEntry).filter
                (entryMatches ["w"])).map AEntry.key))
    ∧ _update_coloring ["w"] (some 5) [cexReq, cexReq]
        = mkColoredEntry 5 cexReq (([cexReq, cexReq] : List AEntry).map AEntry.toPlain)
          :: ([cexReq, cexReq] : List AEntry).filter (fun t =>
              decide (t.key ∉ (([cexReq, cexReq] : List AEntry).filter
                (entryMatches ["w"])).map AEntry.key)) :=
  ⟨⟨by decide, by decide⟩,
    (_update_coloring_char ["w"] [cexReq, cexReq]).2.1 (by decide),
    (_update_coloring_char ["w"] [cexReq, cexReq]).2.2 5 cexReq [cexReq] (by decide)⟩

/-! ## C5: coverage and (near-)disjointness of the pre/iterated/post
partition -/

theorem mem_addOne (a : List String) (s x : String) :
    x ∈ (if s ∈ a then a else a ++ [s]) ↔ x ∈ a ∨ s = x := by
  by_cases h : s ∈ a
  · rw [if_pos h]
    constructor
    · exact Or.inl
    · rintro (h1 | h1)
      · exact h1
      · exact h1 ▸ h
  · rw [if_neg h]
    simp [List.mem_append, eq_comm]

theorem mem_addScc (typed : String → Bool) :
    ∀ (scc acc : List String) (x : String),
      x ∈ addScc typed scc acc ↔ x ∈ acc ∨ ∃ nd ∈ scc, collapseNode typed nd = x := by
  intro scc
  induction scc with
  | nil => intro acc x; simp [addScc]
  | cons nd rest ih =>
    intro acc x
    have hstep : addScc typed (nd :: rest) acc
        = addScc typed rest
            (if collapseNode typed nd ∈ acc then acc
             else acc ++ [collapseNode typed nd]) := rfl
    rw [hstep, ih, mem_addOne]
    constructor
    · rintro ((h | h) | ⟨n2, hn2, hc2⟩)
      · exact Or.inl h
      · exact Or.inr ⟨nd, by simp, h⟩
      · exact Or.inr ⟨n2, by simp [hn2], hc2⟩
    · rintro (h | ⟨n2, hn2, hc2⟩)
      · exact Or.inl (Or.inl h)
      · rcases List.mem_cons.mp hn2 with h2 | h2
        · exact Or.inl (Or.inr (h2 ▸ hc2))
        · exact Or.inr ⟨n2, h2, hc2⟩

theorem walk_pre_mem (typed : String → Bool) (dv0 : String) :
    ∀ (sccs : List (List String)) (p i q : List String) (seen : Bool) (x : String),
      x ∈ (sccWalkAux typed dv0 sccs (p, i, q, seen)).1
        ↔ x ∈ p ∨ (seen = false ∧ ∃ l1 c l2, sccs = l1 ++ c :: l2
            ∧ (∀ d ∈ l1, dv0 ∉ d) ∧ dv0 ∉ c ∧ ∃ nd ∈ c, collapseNode typed nd = x) := by
  intro sccs
  induction sccs with
  | nil =>
    intro p i q seen x
    simp only [sccWalkAux]
    constructor
    · exact Or.inl
    · rintro (h | ⟨_, l1, c, l2, habs, _⟩)
      · exact h
      · cases l1 <;> simp at habs
  | cons scc rest ih =>
    intro p i q seen x
    by_cases hdv : dv0 ∈ scc
    · rw [sccWalkAux, if_pos hdv, ih]
      constructor
      · rintro (h | ⟨habs, _⟩)
        · exact Or.inl h
        · simp at habs
      · rintro (h | ⟨_, l1, c, l2, heq, hfree, hcfree, _⟩)
        · exact Or.inl h
        · cases l1 with
          | nil =>
            obtain ⟨h1, _⟩ := List.cons_eq_cons.mp (by simpa using heq)
            exact absurd (h1 ▸ hdv) hcfree
          | cons a l1' =>
            obtain ⟨h1, _⟩ := List.cons_eq_cons.mp (by simpa using heq)
            exact absurd hdv (h1 ▸ hfree a (by simp))
    · by_cases hseen : seen = true
      · subst hseen
        rw [sccWalkAux, if_neg hdv, if_pos rfl, ih]
        constructor
        · rintro (h | ⟨habs, _⟩)
          · exact Or.inl h
          · simp at habs
        · rintro (h | ⟨habs, _⟩)
          · exact Or.inl h
          · simp at habs
      · have hsf : seen = false := by
          cases seen
          · rfl
          · exact absurd rfl hseen
        subst hsf
        rw [sccWalkAux, if_neg hdv, if_neg (by simp), ih, mem_addScc]
        constructor
        · rintro ((h | ⟨nd, hnd, hc⟩) | ⟨_, l1, c, l2, heq, hfree, hcfree, hex⟩)
          · exact Or.inl h
          · exact Or.inr ⟨rfl, [], scc, rest, rfl, by simp, hdv, nd, hnd, hc⟩
          · refine Or.inr ⟨rfl, scc :: l1, c, l2, by simp [heq], ?_, hcfree, hex⟩
            intro d hd
            rcases List.mem_cons.mp hd with hd | hd
            · exact hd ▸ hdv
            · exact hfree d hd
        · rintro (h | ⟨_, l1, c, l2, heq, hfree, hcfree, hex⟩)
          · exact Or.inl (Or.inl h)
          · cases l1 with
            | nil =>
              obtain ⟨h1, _⟩ := List.cons_eq_cons.mp (by simpa using heq)
              rcases hex with ⟨nd, hnd, hc⟩
              exact Or.inl (Or.inr ⟨nd, h1 ▸ hnd, hc⟩)
            | cons a l1' =>
              obtain ⟨_, h2⟩ := List.cons_eq_cons.mp (by simpa using heq)
              exact Or.inr ⟨rfl, l1', c, l2, h2, fun d hd => hfree d (by simp [hd]), hcfree, hex⟩

theorem walk_iter_mem (typed : String → Bool) (dv0 : String) :
    ∀ (sccs : List (List String)) (p i q : List String) (seen : Bool) (x : String),
      x ∈ (sccWalkAux typed dv0 sccs (p, i, q, seen)).2.1
        ↔ x ∈ i ∨ ∃ c ∈ sccs, dv0 ∈ c ∧ ∃ nd ∈ c, collapseNode typed nd = x := by
  intro sccs
  induction sccs with
  | nil =>
    intro p i q seen x
    simp [sccWalkAux]
  | cons scc rest ih =>
    intro p i q seen x
    by_cases hdv : dv0 ∈ scc
    · rw [sccWalkAux, if_pos hdv, ih, mem_addScc]
      constructor
      · rintro ((h | ⟨nd, hnd, hc⟩) | ⟨c, hc1, hc2, hex⟩)
        · exact Or.inl h
        · exact Or.inr ⟨scc, by simp, hdv, nd, hnd, hc⟩
        · exact Or.inr ⟨c, by simp [hc1], hc2, hex⟩
      · rintro (h | ⟨c, hc1, hc2, hex⟩)
        · exact Or.inl (Or.inl h)
        · rcases List.mem_cons.mp hc1 with h2 | h2
          · rcases hex with ⟨nd, hnd, hc⟩
            exact Or.inl (Or.inr ⟨nd, h2 ▸ hnd, hc⟩)
          · exact Or.inr ⟨c, h2, hc2, hex⟩
    · have hstep : (sccWalkAux typed dv0 (scc :: rest) (p, i, q, seen)).2.1
          = (sccWalkAux typed dv0 rest
              (if seen then (p, i, addScc typed scc q, seen)
               else (addScc typed scc p, i, q, seen))).2.1 := by
        rw [sccWalkAux, if_neg hdv]
        by_cases hseen : seen = true
        · rw [if_pos hseen, if_pos (hseen ▸ rfl)]
        · have : seen = false := by
            cases seen
            · rfl
            · exact absurd rfl hseen
          rw [if_neg hseen, if_neg (by simp [this])]
      rw [hstep]
      by_cases hseen : seen = true
      · rw [if_pos (by simp [hseen]), ih]
        constructor
        · rintro (h | ⟨c, hc1, hc2, hex⟩)
          · exact Or.inl h
          · exact Or.inr ⟨c, by simp [hc1], hc2, hex⟩
        · rintro (h | ⟨c, hc1, hc2, hex⟩)
          · exact Or.inl h
          · rcases List.mem_cons.mp hc1 with h2 | h2
            · exact absurd (h2 ▸ hc2) hdv
            · exact Or.inr ⟨c, h2, hc2, hex⟩
      · rw [if_neg (by simpa using hseen), ih]
        constructor
        · rintro (h | ⟨c, hc1, hc2, hex⟩)
          · exact Or.inl h
          · exact Or.inr ⟨c, by simp [hc1], hc2, hex⟩
        · rintro (h | ⟨c, hc1, hc2, hex⟩)
          · exact Or.inl h
          · rcases List.mem_cons.mp hc1 with h2 | h2
            · exact absurd (h2 ▸ hc2) hdv
            · exact Or.inr ⟨c, h2, hc2, hex⟩

theorem walk_post_mem (typed : String → Bool) (dv0 : String) :
    ∀ (sccs : List (List String)) (p i q : List String) (seen : Bool) (x : String),
      x ∈ (sccWalkAux typed dv0 sccs (p, i, q, seen)).2.2.1
        ↔ x ∈ q ∨ ∃ l1 c l2, sccs = l1 ++ c :: l2 ∧ dv0 ∉ c
            ∧ (seen = true ∨ ∃ d ∈ l1, dv0 ∈ d)
            ∧ ∃ nd ∈ c, collapseNode typed nd = x := by
  intro sccs
  induction sccs with
  | nil =>
    intro p i q seen x
    simp only [sccWalkAux]
    constructor
    · exact Or.inl
    · rintro (h | ⟨l1, c, l2, habs, _⟩)
      · exact h
      · cases l1 <;> simp at habs
  | cons scc rest ih =>
    intro p i q seen x
    by_cases hdv : dv0 ∈ scc
    · rw [sccWalkAux, if_pos hdv, ih]
      constructor
      · rintro (h | ⟨l1, c, l2, heq, hcfree, _, hex⟩)
        · exact Or.inl h
        · exact Or.inr ⟨scc :: l1, c, l2, by simp [heq], hcfree,
            Or.inr ⟨scc, by simp, hdv⟩, hex⟩
      · rintro (h | ⟨l1, c, l2, heq, hcfree, _, hex⟩)
        · exact Or.inl h
        · cases l1 with
          | nil =>
            obtain ⟨h1, _⟩ := List.cons_eq_cons.mp (by simpa using heq)
            exact absurd (h1 ▸ hdv) hcfree
          | cons a l1' =>
            obtain ⟨_, h2⟩ := List.cons_eq_cons.mp (by simpa using heq)
            exact Or.inr ⟨l1', c, l2, h2, hcfree, Or.inl rfl, hex⟩
    · by_cases hseen : seen = true
      · subst hseen
        rw [sccWalkAux, if_neg hdv, if_pos rfl, ih, mem_addScc]
        constructor
        · rintro ((h | ⟨nd, hnd, hc⟩) | ⟨l1, c, l2, heq, hcfree, _, hex⟩)
          · exact Or.inl h
          · exact Or.inr ⟨[], scc, rest, rfl, hdv, Or.inl rfl, nd, hnd, hc⟩
          · exact Or.inr ⟨scc :: l1, c, l2, by simp [heq], hcfree, Or.inl rfl, hex⟩
        · rintro (h | ⟨l1, c, l2, heq, hcfree, _, hex⟩)
          · exact Or.inl (Or.inl h)
          · cases l1 with
            | nil =>
              obtain ⟨h1, _⟩ := List.cons_eq_cons.mp (by simpa using heq)
              rcases hex with ⟨nd, hnd, hc⟩
              exact Or.inl (Or.inr ⟨nd, h1 ▸ hnd, hc⟩)
            | cons a l1' =>
              obtain ⟨_, h2⟩ := List.cons_eq_cons.mp (by simpa using heq)
              exact Or.inr ⟨l1', c, l2, h2, hcfree, Or.inl rfl, hex⟩
      · have hsf : seen = false := by
          cases seen
          · rfl
          · exact absurd rfl hseen
        subst hsf
        rw [sccWalkAux, if_neg hdv, if_neg (by simp), ih]
        constructor
        · rintro (h | ⟨l1, c, l2, heq, hcfree, hcond, hex⟩)
          · exact Or.inl h
          · rcases hcond with habs | ⟨d, hd1, hd2⟩
            · simp at habs
            · exact Or.inr ⟨scc :: l1, c, l2, by simp [heq], hcfree,
                Or.inr ⟨d, by simp [hd1], hd2⟩, hex⟩
        · rintro (h | ⟨l1, c, l2, heq, hcfree, hcond, hex⟩)
          · exact Or.inl h
          · cases l1 with
            | nil =>
              rcases hcond with habs | ⟨d, hd1, _⟩
              · simp at habs
              · simp at hd1
            | cons a l1' =>
              obtain ⟨h1, h2⟩ := List.cons_eq_cons.mp (by simpa using heq)
              rcases hcond with habs | ⟨d, hd1, hd2⟩
              · simp at habs
              · rcases List.mem_cons.mp hd1 with hd1 | hd1
                · exact absurd ((h1 ▸ hd1 : d = scc) ▸ hd2) hdv
                · exact Or.inr ⟨l1', c, l2, h2, hcfree, Or.inr ⟨d, hd1, hd2⟩, hex⟩

theorem scc_decomp_unique (c c2 : List String) (x : String) (hx1 : x ∈ c) (hx2 : x ∈ c2)
    (l2 m2 : List (List String)) :
    ∀ (l1 m1 : List (List String)),
      (l1 ++ c :: l2).Pairwise (fun a b => ∀ y, y ∈ a → y ∉ b) →
      l1 ++ c :: l2 = m1 ++ c2 :: m2 → l1 = m1 ∧ c = c2 := by
  intro l1
  induction l1 with
  | nil =>
    intro m1 hp heq
    cases m1 with
    | nil =>
      simp only [List.nil_append] at heq
      exact ⟨rfl, (List.cons_eq_cons.mp heq).1⟩
    | cons d m1' =>
      simp only [List.nil_append, List.cons_append] at heq
      obtain ⟨hdc, hrest⟩ := List.cons_eq_cons.mp heq
      have hc2mem : c2 ∈ l2 := by rw [hrest]; simp
      have hR := (List.pairwise_cons.mp hp).1 c2 hc2mem
      exact absurd hx2 (hR x hx1)
  | cons a l1' ih =>
    intro m1 hp heq
    cases m1 with
    | nil =>
      simp only [List.cons_append, List.nil_append] at heq
      obtain ⟨hac, hrest⟩ := List.cons_eq_cons.mp heq
      have hR := (List.pairwise_cons.mp hp).1 c (by simp)
      exact absurd hx1 (hR x (hac.symm ▸ hx2))
    | cons d m1' =>
      simp only [List.cons_append] at heq
      obtain ⟨had, hrest⟩ := List.cons_eq_cons.mp heq
      have hp' := (List.pairwise_cons.mp hp).2
      obtain ⟨h1, h2⟩ := ih m1' hp' hrest
      exact ⟨by rw [had, h1], h2⟩

theorem collapse_untyped_eq (typed : String → Bool)
    (htyped : ∀ nd, typed nd = true → dropLastDot nd = autoIvcName)
    (x nd : String) (hx : x ≠ autoIvcName) (h : collapseNode typed nd = x) :
    nd = x := by
  unfold collapseNode at h
  by_cases ht : typed nd = true
  · rw [if_pos ht] at h
    exact absurd (h.symm.trans (htyped nd ht)) hx
  · rw [if_neg ht] at h
    exact h

theorem mem_adjust_of_ne (autoOuts autoDvs : List String)
    (revConns : String → List String) (pre : List String) (x : String)
    (hx : x ≠ autoIvcName) :
    x ∈ adjustAutoIvcPre autoOuts autoDvs revConns pre ↔ x ∈ pre := by
  simp only [adjustAutoIvcPre]
  by_cases ha : autoIvcName ∈ pre
  · rw [if_pos ha]
    by_cases hlen : pre.length = 1 ∧ autoIvcName ∈ pre
    · rw [if_pos hlen, List.mem_erase_of_ne hx]
    · rw [if_neg hlen]
  · rw [if_neg ha]
    by_cases hb : (autoOuts.any fun v =>
        decide (v ∉ autoDvs) &&
        (revConns v).any fun tgt => decide (dropLastDot tgt ∈ pre)) = true
    · rw [if_pos hb]
      by_cases hlen : (pre ++ [autoIvcName]).length = 1
          ∧ autoIvcName ∈ pre ++ [autoIvcName]
      · rw [if_pos hlen, List.mem_erase_of_ne hx]
        simp [hx]
      · rw [if_neg hlen]
        simp [hx]
    · rw [if_neg hb]
      by_cases hlen : pre.length = 1 ∧ autoIvcName ∈ pre
      · rw [if_pos hlen, List.mem_erase_of_ne hx]
      · rw [if_neg hlen]

theorem raw_pre_char (typed : String → Bool) (dv0 : String) (sccs : List (List String))
    (autoOuts autoDvs : List String) (revConns : String → List String)
    (x : String) (hx : x ≠ autoIvcName) :
    x ∈ (nonlinearPartitionRaw typed dv0 sccs autoOuts autoDvs revConns).1
      ↔ ∃ l1 c l2, sccs = l1 ++ c :: l2 ∧ (∀ d ∈ l1, dv0 ∉ d) ∧ dv0 ∉ c
          ∧ ∃ nd ∈ c, collapseNode typed nd = x := by
  show x ∈ adjustAutoIvcPre autoOuts autoDvs revConns
      (sccWalkAux typed dv0 sccs ([], [], [], false)).1 ↔ _
  rw [mem_adjust_of_ne autoOuts autoDvs revConns _ x hx, walk_pre_mem]
  constructor
  · rintro (h | ⟨_, h⟩)
    · simp at h
    · exact h
  · intro h
    exact Or.inr ⟨rfl, h⟩

theorem raw_iter_char (typed : String → Bool) (dv0 : String) (sccs : List (List String))
    (autoOuts autoDvs : List String) (revConns : String → List String) (x : String) :
    x ∈ (nonlinearPartitionRaw typed dv0 sccs autoOuts autoDvs revConns).2.1
      ↔ ∃ c ∈ sccs, dv0 ∈ c ∧ ∃ nd ∈ c, collapseNode typed nd = x := by
  show x ∈ (sccWalkAux typed dv0 sccs ([], [], [], false)).2.1 ↔ _
  rw [walk_iter_mem]
  constructor
  · rintro (h | h)
    · simp at h
    · exact h
  · exact Or.inr

theorem raw_post_char (typed : String → Bool) (dv0 : String) (sccs : List (List String))
    (autoOuts autoDvs : List String) (revConns : String → List String) (x : String) :
    x ∈ (nonlinearPartitionRaw typed dv0 sccs autoOuts autoDvs revConns).2.2
      ↔ ∃ l1 c l2, sccs = l1 ++ c :: l2 ∧ dv0 ∉ c ∧ (∃ d ∈ l1, dv0 ∈ d)
          ∧ ∃ nd ∈ c, collapseNode typed nd = x := by
  show x ∈ (sccWalkAux typed dv0 sccs ([], [], [], false)).2.2.1 ↔ _
  rw [walk_post_mem]
  constructor
  · rintro (h | ⟨l1, c, l2, heq, hcfree, hcond, hex⟩)
    · simp at h
    · rcases hcond with habs | hcond
      · simp at habs
      · exact ⟨l1, c, l2, heq, hcfree, hcond, hex⟩
  · rintro ⟨l1, c, l2, heq, hcfree, hcond, hex⟩
    exact Or.inr ⟨l1, c, l2, heq, hcfree, Or.inr hcond, hex⟩

/-- Counterexample to C5 as stated: a model where the auto-ivc design
variable `_auto_ivc.v0` drives the response component `A` while the
non-design output `_auto_ivc.v1` drives a pre component `C`.  The SCC walk
puts the component node `_auto_ivc` (its own topologically-early SCC) into
`pre`, while the variable node `_auto_ivc.v0` inside the design-variable
SCC collapses (`rpartition('.')[0]`) to `_auto_ivc` inside `iterated` —
the resulting `pre` and `iterated` sets are NOT disjoint. -/
theorem nonlinear_partition_not_disjoint :
    "_auto_ivc" ∈ (nonlinearPartition cexTyped "_auto_ivc.v0" cexSccs
        ["_auto_ivc.v0", "_auto_ivc.v1"] ["_auto_ivc.v0"] cexRevConns []).1
    ∧ "_auto_ivc" ∈ (nonlinearPartition cexTyped "_auto_ivc.v0" cexSccs
        ["_auto_ivc.v0", "_auto_ivc.v1"] ["_auto_ivc.v0"] cexRevConns []).2.1 :=
  ⟨by decide, by decide⟩

/-- Claim C5 (amended): away from the auto-ivc component name the claim
holds — for every name `x ≠ "_auto_ivc"`: `x` is in the union of the three
sets produced before the `- groups_added` subtraction iff `x` is the
collapse of some node reached by the SCC walk (coverage, both directions),
and the three final sets are pairwise disjoint at `x` (given that the SCC
lists are pairwise disjoint and that every `type_`-carrying node collapses
to `_auto_ivc`).  At `_auto_ivc` itself both parts can fail: `pre` and
`iterated` may both contain it (see the counterexample), and it can be
dropped from `pre` entirely. -/
theorem nonlinear_partition_covers_and_nearly_disjoint
    (typed : String → Bool) (dv0 : String) (sccs : List (List String))
    (autoOuts autoDvs : List String) (revConns : String → List String)
    (groupsAdded : List String)
    (hdisj : sccs.Pairwise (fun a b => ∀ y, y ∈ a → y ∉ b))
    (htyped : ∀ nd, typed nd = true → dropLastDot nd = autoIvcName)
    (x : String) (hx : x ≠ autoIvcName) :
    ((x ∈ (nonlinearPartitionRaw typed dv0 sccs autoOuts autoDvs revConns).1
        ∨ x ∈ (nonlinearPartitionRaw typed dv0 sccs autoOuts autoDvs revConns).2.1
        ∨ x ∈ (nonlinearPartitionRaw typed dv0 sccs autoOuts autoDvs revConns).2.2)
      ↔ ∃ c ∈ sccs, ∃ nd ∈ c, collapseNode typed nd = x)
    ∧ ¬(x ∈ (nonlinearPartition typed dv0 sccs autoOuts autoDvs revConns groupsAdded).1
        ∧ x ∈ (nonlinearPartition typed dv0 sccs autoOuts autoDvs revConns groupsAdded).2.1)
    ∧ ¬(x ∈ (nonlinearPartition typed dv0 sccs autoOuts autoDvs revConns groupsAdded).1
        ∧ x ∈ (nonlinearPartition typed dv0 sccs autoOuts autoDvs revConns groupsAdded).2.2)
    ∧ ¬(x ∈ (nonlinearPartition typed dv0 sccs autoOuts autoDvs revConns groupsAdded).2.1
        ∧ x ∈ (nonlinearPartition typed dv0 sccs autoOuts autoDvs revConns groupsAdded).2.2) := by
  have hfin1 : ∀ y, y ∈ (nonlinearPartition typed dv0 sccs autoOuts autoDvs revConns
      groupsAdded).1 → y ∈ (nonlinearPartitionRaw typed dv0 sccs autoOuts autoDvs revConns).1 :=
    fun y hy => (List.mem_filter.mp hy).1
  have hfin2 : ∀ y, y ∈ (nonlinearPartition typed dv0 sccs autoOuts autoDvs revConns
      groupsAdded).2.1 →
      y ∈ (nonlinearPartitionRaw typed dv0 sccs autoOuts autoDvs revConns).2.1 :=
    fun y hy => (List.mem_filter.mp hy).1
  have hfin3 : ∀ y, y ∈ (nonlinearPartition typed dv0 sccs autoOuts autoDvs revConns
      groupsAdded).2.2 →
      y ∈ (nonlinearPartitionRaw typed dv0 sccs autoOuts autoDvs revConns).2.2 :=
    fun y hy => (List.mem_filter.mp hy).1
  have hpre : x ∈ (nonlinearPartitionRaw typed dv0 sccs autoOuts autoDvs revConns).1 →
      ∃ l1 c l2, sccs = l1 ++ c :: l2 ∧ (∀ d ∈ l1, dv0 ∉ d) ∧ dv0 ∉ c ∧ x ∈ c := by
    intro h
    rcases (raw_pre_char typed dv0 sccs autoOuts autoDvs revConns x hx).mp h with
      ⟨l1, c, l2, heq, hfree, hcfree, nd, hnd, hcol⟩
    exact ⟨l1, c, l2, heq, hfree, hcfree,
      (collapse_untyped_eq typed htyped x nd hx hcol) ▸ hnd⟩
  have hiter : x ∈ (nonlinearPartitionRaw typed dv0 sccs autoOuts autoDvs revConns).2.1 →
      ∃ c ∈ sccs, dv0 ∈ c ∧ x ∈ c := by
    intro h
    rcases (raw_iter_char typed dv0 sccs autoOuts autoDvs revConns x).mp h with
      ⟨c, hc, hdvc, nd, hnd, hcol⟩
    exact ⟨c, hc, hdvc, (collapse_untyped_eq typed htyped x nd hx hcol) ▸ hnd⟩
  have hpost : x ∈ (nonlinearPartitionRaw typed dv0 sccs autoOuts autoDvs revConns).2.2 →
      ∃ l1 c l2, sccs = l1 ++ c :: l2 ∧ dv0 ∉ c ∧ (∃ d ∈ l1, dv0 ∈ d) ∧ x ∈ c := by
    intro h
    rcases (raw_post_char typed dv0 sccs autoOuts autoDvs revConns x).mp h with
      ⟨l1, c, l2, heq, hcfree, hcond, nd, hnd, hcol⟩
    exact ⟨l1, c, l2, heq, hcfree, hcond,
      (collapse_untyped_eq typed htyped x nd hx hcol) ▸ hnd⟩
  refine ⟨?_, ?_, ?_, ?_⟩
  · constructor
    · rintro (h | h | h)
      · rcases (raw_pre_char typed dv0 sccs autoOuts autoDvs revConns x hx).mp h with
          ⟨l1, c, l2, heq, _, _, hex⟩
        exact ⟨c, by rw [heq]; simp, hex⟩
      · rcases (raw_iter_char typed dv0 sccs autoOuts autoDvs revConns x).mp h with
          ⟨c, hc, _, hex⟩
        exact ⟨c, hc, hex⟩
      · rcases (raw_post_char typed dv0 sccs autoOuts autoDvs revConns x).mp h with
          ⟨l1, c, l2, heq, _, _, hex⟩
        exact ⟨c, by rw [heq]; simp, hex⟩
    · rintro ⟨c, hc, nd, hnd, hcol⟩
      obtain ⟨s, t, hst⟩ := List.append_of_mem hc
      by_cases hdvc : dv0 ∈ c
      · exact Or.inr (Or.inl ((raw_iter_char typed dv0 sccs autoOuts autoDvs
          revConns x).mpr ⟨c, hc, hdvc, nd, hnd, hcol⟩))
      · by_cases hseen : ∃ d ∈ s, dv0 ∈ d
        · exact Or.inr (Or.inr ((raw_post_char typed dv0 sccs autoOuts autoDvs
            revConns x).mpr ⟨s, c, t, hst, hdvc, hseen, nd, hnd, hcol⟩))
        · refine Or.inl ((raw_pre_char typed dv0 sccs autoOuts autoDvs
            revConns x hx).mpr ⟨s, c, t, hst, ?_, hdvc, nd, hnd, hcol⟩)
          intro d hd hdv
          exact hseen ⟨d, hd, hdv⟩
  · rintro ⟨h1, h2⟩
    obtain ⟨l1, c, l2, heq, hfree, hcfree, hxc⟩ := hpre (hfin1 x h1)
    obtain ⟨c2, hc2, hdv2, hxc2⟩ := hiter (hfin2 x h2)
    obtain ⟨m1, m2, heq2⟩ := List.append_of_mem hc2
    obtain ⟨_, hcc⟩ := scc_decomp_unique c c2 x hxc hxc2 l2 m2 l1 m1
      (heq ▸ hdisj) (heq.symm.trans heq2)
    exact hcfree (hcc.symm ▸ hdv2)
  · rintro ⟨h1, h2⟩
    obtain ⟨l1, c, l2, heq, hfree, hcfree, hxc⟩ := hpre (hfin1 x h1)
    obtain ⟨m1, c2, m2, heq2, hcfree2, ⟨d, hd1, hd2⟩, hxc2⟩ := hpost (hfin3 x h2)
    obtain ⟨hll, _⟩ := scc_decomp_unique c c2 x hxc hxc2 l2 m2 l1 m1
      (heq ▸ hdisj) (heq.symm.trans heq2)
    exact hfree d (hll ▸ hd1) hd2
  · rintro ⟨h1, h2⟩
    obtain ⟨c, hc, hdvc, hxc⟩ := hiter (hfin2 x h1)
    obtain ⟨m1, c2, m2, heq2, hcfree2, _, hxc2⟩ := hpost (hfin3 x h2)
    obtain ⟨s, t, hst⟩ := List.append_of_mem hc
    obtain ⟨_, hcc⟩ := scc_decomp_unique c c2 x hxc hxc2 t m2 s m1
      (hst ▸ hdisj) (hst.symm.trans heq2)
    exact hcfree2 (hcc ▸ hdvc)

/-- Witness for (amended) C5 on the concrete counterexample model, at the
name `"C"` (a plain pre component distinct from `_auto_ivc`). -/
theorem nonlinear_partition_covers_and_nearly_disjoint_witness :
    (cexSccs.Pairwise (fun a b => ∀ y, y ∈ a → y ∉ b)
      ∧ (∀ nd, cexTyped nd = true → dropLastDot nd = autoIvcName)
      ∧ "C" ≠ autoIvcName)
    ∧ (("C" ∈ (nonlinearPartitionRaw cexTyped "_auto_ivc.v0" cexSccs
          ["_auto_ivc.v0", "_auto_ivc.v1"] ["_auto_ivc.v0"] cexRevConns).1
        ∨ "C" ∈ (nonlinearPartitionRaw cexTyped "_auto_ivc.v0" cexSccs
          ["_auto_ivc.v0", "_auto_ivc.v1"] ["_auto_ivc.v0"] cexRevConns).2.1
        ∨ "C" ∈ (nonlinearPartitionRaw cexTyped "_auto_ivc.v0" cexSccs
          ["_auto_ivc.v0", "_auto_ivc.v1"] ["_auto_ivc.v0"] cexRevConns).2.2)
      ↔ ∃ c ∈ cexSccs, ∃ nd ∈ c, collapseNode cexTyped nd = "C")
    ∧ ¬("C" ∈ (nonlinearPartition cexTyped "_auto_ivc.v0" cexSccs
          ["_auto_ivc.v0", "_auto_ivc.v1"] ["_auto_ivc.v0"] cexRevConns []).1
        ∧ "C" ∈ (nonlinearPartition cexTyped "_auto_ivc.v0" cexSccs
          ["_auto_ivc.v0", "_auto_ivc.v1"] ["_auto_ivc.v0"] cexRevConns []).2.1) :=
  ⟨⟨by decide, by
      intro nd hnd
      simp only [cexTyped, decide_eq_true_eq] at hnd
      rw [hnd]
      decide, by decide⟩,
    (nonlinear_partition_covers_and_nearly_disjoint cexTyped "_auto_ivc.v0" cexSccs
      ["_auto_ivc.v0", "_auto_ivc.v1"] ["_auto_ivc.v0"] cexRevConns [] (by decide)
      (by
        intro nd hnd
        simp only [cexTyped, decide_eq_true_eq] at hnd
        rw [hnd]
        decide) "C" (by decide)).1,
    (nonlinear_partition_covers_and_nearly_disjoint cexTyped "_auto_ivc.v0" cexSccs
      ["_auto_ivc.v0", "_auto_ivc.v1"] ["_auto_ivc.v0"] cexRevConns [] (by decide)
      (by
        intro nd hnd
        simp only [cexTyped, decide_eq_true_eq] at hnd
        rw [hnd]
        decide) "C" (by decide)).2.1⟩

/-- The value-level cache is value-preserving: whatever `_get_cached_array`
returns is structurally equal to its argument (the stored array under the
matching content hash has the same content). -/
theorem _get_cached_array_val_eq (cache : List RelArray) (arr : RelArray) :
    _get_cached_array_val cache arr = arr := by
  unfold _get_cached_array_val
  rcases h : cache.find? (fun a => decide (a = arr)) with _ | a
  · rfl
  · have ha := @List.find?_some _ (fun x => decide (x = arr)) a cache h
    exact of_decide_eq_true ha
